import Mathlib

/- Verification of the expression-language REPL front end from src/repl.cpp:
   lexer, LL(1) recursive-descent parser, and Hindley-Milner-style type
   inference (node numbering, per-construct constraint generation, and a
   union-find constraint solver with path compression and an asymmetric
   join whose second argument becomes the surviving root).  Machine `int`
   values are modelled as unbounded integers.  The C++ recursions all
   terminate because each call strictly shrinks its input; they are embedded
   with an explicit fuel argument, and every entry point supplies fuel
   exceeding the recursion depth, so the fuel-exhaustion branches are dead. -/

deriving instance DecidableEq for Except

namespace Repl

/-! ## Lexer (repl.cpp, `tokenize`) -/

/-- Tokens: variable name `N`, integer literal `I`, boolean literal `B`,
reserved token `K`, mirroring the four `Token` subclasses. -/
inductive Token where
  | N (val : String)
  | I (val : Int)
  | B (val : Bool)
  | K (val : String)
deriving DecidableEq, Repr

/-- `Token::getLiteral` of each subclass. -/
def Token.getLiteral : Token → String
  | .N v => v
  | .I v => toString v
  | .B true => "true"
  | .B false => "false"
  | .K v => v

/-- `isa`: alphabetic test (std::isalpha, C locale). -/
def isa (c : Char) : Bool := (('a' ≤ c) && (c ≤ 'z')) || (('A' ≤ c) && (c ≤ 'Z'))

/-- `isd`: digit test (std::isdigit). -/
def isd (c : Char) : Bool := ('0' ≤ c) && (c ≤ '9')

/-- `iss`: whitespace test (std::isspace, C locale). -/
def iss (c : Char) : Bool :=
  (c == ' ') || (c == '\t') || (c == '\n') || (c == '\x0b') || (c == '\x0c') || (c == '\r')

/-- Value of a digit string, as computed by `std::stoi` on digit input. -/
def natOfDigits (l : List Char) : Nat := l.foldl (fun a c => 10 * a + (c.toNat - 48)) 0

/-- Keyword-priority classification of an alphabetic word, mirroring the
if/else chain in `tokenize`. -/
def wordToken (w : String) : Token :=
  if w = "true" then .B true
  else if w = "false" then .B false
  else if w = "if" then .K "if"
  else if w = "then" then .K "then"
  else if w = "else" then .K "else"
  else if w = "let" then .K "let"
  else if w = "in" then .K "in"
  else .N w

/-- The scanning loop of `tokenize`, over the character list with the current
position `i` (used only in error messages, as in the source).  Every
iteration consumes at least one character, so fuel `length + 1` suffices. -/
def tokenizeAux : Nat → List Char → Nat → Except String (List Token)
  | 0, _, _ => .error "Internal: lexer fuel exhausted"
  | _ + 1, [], _ => .ok []
  | fuel + 1, c :: cs, i =>
    if iss c then tokenizeAux fuel cs (i + 1)
    else if isa c then
      let w := c :: cs.takeWhile isa
      (fun ts => wordToken (String.mk w) :: ts) <$>
        tokenizeAux fuel (cs.dropWhile isa) (i + w.length)
    else if c == '(' then (fun ts => Token.K "(" :: ts) <$> tokenizeAux fuel cs (i + 1)
    else if c == ')' then (fun ts => Token.K ")" :: ts) <$> tokenizeAux fuel cs (i + 1)
    else if c == '-' then
      match cs with
      | d :: ds =>
        if isd d then
          let digits := (d :: ds).takeWhile isd
          (fun ts => Token.I (-(natOfDigits digits : Int)) :: ts) <$>
            tokenizeAux fuel ((d :: ds).dropWhile isd) (i + 1 + digits.length)
        else (fun ts => Token.K "-" :: ts) <$> tokenizeAux fuel (d :: ds) (i + 1)
      | [] => (fun ts => Token.K "-" :: ts) <$> tokenizeAux fuel [] (i + 1)
    else if c == '*' then (fun ts => Token.K "*" :: ts) <$> tokenizeAux fuel cs (i + 1)
    else if c == '/' then (fun ts => Token.K "/" :: ts) <$> tokenizeAux fuel cs (i + 1)
    else if c == '<' then (fun ts => Token.K "<" :: ts) <$> tokenizeAux fuel cs (i + 1)
    else if c == '=' then (fun ts => Token.K "=" :: ts) <$> tokenizeAux fuel cs (i + 1)
    else if isd c then
      let digits := c :: cs.takeWhile isd
      (fun ts => Token.I (natOfDigits digits : Int) :: ts) <$>
        tokenizeAux fuel (cs.dropWhile isd) (i + digits.length)
    else .error ("Token Error: unrecognized character '" ++ String.mk [c] ++
      "' at position " ++ toString i)

/-- `tokenize(source)`. -/
def tokenize (s : String) : Except String (List Token) :=
  tokenizeAux (s.data.length + 1) s.data 0

/-! ## AST and parser (repl.cpp, `Node` subclasses, `parseHead`/`parseTail`) -/

/-- AST nodes, mirroring the `Node` subclasses. -/
inductive Node where
  | Var (val : String)
  | Int (val : Int)
  | Bool (val : Bool)
  | Sub (n1 n2 : Node)
  | Mul (n1 n2 : Node)
  | Div (n1 n2 : Node)
  | Lt (n1 n2 : Node)
  | If (n1 n2 n3 : Node)
  | Let (n1 n2 n3 : Node)
deriving DecidableEq, Repr

/-- `Node::getLiteral` of each subclass: the bracketed debug rendering. -/
def Node.getLiteral : Node → String
  | .Var v => "[Var " ++ v ++ "]"
  | .Int v => "[Int " ++ toString v ++ "]"
  | .Bool true => "[Bool true]"
  | .Bool false => "[Bool false]"
  | .Sub a b => "[Sub " ++ a.getLiteral ++ " " ++ b.getLiteral ++ "]"
  | .Mul a b => "[Mul " ++ a.getLiteral ++ " " ++ b.getLiteral ++ "]"
  | .Div a b => "[Div " ++ a.getLiteral ++ " " ++ b.getLiteral ++ "]"
  | .Lt a b => "[Lt " ++ a.getLiteral ++ " " ++ b.getLiteral ++ "]"
  | .If a b c => "[If " ++ a.getLiteral ++ " " ++ b.getLiteral ++ " " ++ c.getLiteral ++ "]"
  | .Let a b c => "[Let " ++ a.getLiteral ++ " " ++ b.getLiteral ++ " " ++ c.getLiteral ++ "]"

/-- Which of the mutually recursive parsing procedures is running:
`head` is `parseHead`, `tail` is `parseTail`, and `bin mk opname` is the
shared shape of the four binary-operator productions inside `parseTail`. -/
inductive PMode where
  | head
  | tail
  | bin (mk : Node → Node → Node) (opname : String)

/-- The mutually recursive `parseHead`/`parseTail` pair, fuelled.  Dispatch
inside `parseTail` compares `getLiteral()` of the popped token, exactly as
the source does. -/
def parseF : Nat → PMode → List Token → Except String (Node × List Token)
  | 0, _, _ => .error "Internal: parser fuel exhausted"
  | _ + 1, .head, [] => .error "Syntax Error: Expressions and subexpressions cannot be empty."
  | fuel + 1, .head, t :: ts =>
    match t with
    | .N v => .ok (.Var v, ts)
    | .I v => .ok (.Int v, ts)
    | .B b => .ok (.Bool b, ts)
    | .K v =>
      if v = "(" then parseF fuel .tail ts
      else .error ("Syntax Error: Expressions and subexpressions cannot start with token " ++ v)
  | _ + 1, .tail, [] => .error "Syntax Error: Expressions and subexpressions cannot be (."
  | fuel + 1, .tail, t :: ts =>
    if t.getLiteral = "-" then parseF fuel (.bin .Sub "-") ts
    else if t.getLiteral = "*" then parseF fuel (.bin .Mul "*") ts
    else if t.getLiteral = "/" then parseF fuel (.bin .Div "/") ts
    else if t.getLiteral = "<" then parseF fuel (.bin .Lt "<") ts
    else if t.getLiteral = "if" then
      match parseF fuel .head ts with
      | .error e => .error e
      | .ok (n1, q1) =>
        match q1 with
        | [] => .error "Syntax Error: missing 'then' in (if <expr1> then <expr2> else <expr3>)"
        | r1 :: q2 =>
          if r1.getLiteral = "then" then
            match parseF fuel .head q2 with
            | .error e => .error e
            | .ok (n2, q3) =>
              match q3 with
              | [] =>
                .error "Syntax Error: missing 'else' in (if <expr1> then <expr2> else <expr3>)"
              | r2 :: q4 =>
                if r2.getLiteral = "else" then
                  match parseF fuel .head q4 with
                  | .error e => .error e
                  | .ok (n3, q5) =>
                    match q5 with
                    | [] =>
                      .error "Syntax Error: missing ) in (if <expr1> then <expr2> else <expr3>)"
                    | r3 :: q6 =>
                      if r3.getLiteral = ")" then .ok (.If n1 n2 n3, q6)
                      else .error
                        "Syntax Error: missing ) in (if <expr1> then <expr2> else <expr3>)"
                else .error "Syntax Error: missing 'else' in (if <expr1> then <expr2> else <expr3>)"
          else .error "Syntax Error: missing 'then' in (if <expr1> then <expr2> else <expr3>)"
    else if t.getLiteral = "let" then
      match parseF fuel .head ts with
      | .error e => .error e
      | .ok (n1, q1) =>
        match n1 with
        | .Var w =>
          match q1 with
          | [] => .error "Syntax Error: missing = in (let <variable> = <expr1> in <expr2>)"
          | r1 :: q2 =>
            if r1.getLiteral = "=" then
              match parseF fuel .head q2 with
              | .error e => .error e
              | .ok (n2, q3) =>
                match q3 with
                | [] =>
                  .error "Syntax Error: missing 'in' in (let <variable> = <expr1> in <expr2>)"
                | r2 :: q4 =>
                  if r2.getLiteral = "in" then
                    match parseF fuel .head q4 with
                    | .error e => .error e
                    | .ok (n3, q5) =>
                      match q5 with
                      | [] =>
                        .error "Syntax Error: missing ) in (let <variable> = <expr1> in <expr2>)"
                      | r3 :: q6 =>
                        if r3.getLiteral = ")" then .ok (.Let (.Var w) n2 n3, q6)
                        else .error
                          "Syntax Error: missing ) in (let <variable> = <expr1> in <expr2>)"
                  else .error "Syntax Error: missing 'in' in (let <variable> = <expr1> in <expr2>)"
            else .error "Syntax Error: missing = in (let <variable> = <expr1> in <expr2>)"
        | _ => .error "Syntax Error: The token following 'let' must be a variable."
    else .error ("Syntax Error: Expressions and subexpressions cannot start with ( and " ++
      t.getLiteral)
  | fuel + 1, .bin mk opname, ts =>
    match parseF fuel .head ts with
    | .error e => .error e
    | .ok (n1, q1) =>
      match parseF fuel .head q1 with
      | .error e => .error e
      | .ok (n2, q2) =>
        match q2 with
        | [] => .error ("Syntax Error: missing ) in (" ++ opname ++ " <expr1> <expr2>)")
        | r :: q3 =>
          if r.getLiteral = ")" then .ok (mk n1 n2, q3)
          else .error ("Syntax Error: missing ) in (" ++ opname ++ " <expr1> <expr2>)")

/-- `parseHead(q)`, with fuel. -/
def parseHead (fuel : Nat) (ts : List Token) : Except String (Node × List Token) :=
  parseF fuel .head ts

/-- `parse(tokens)`: run `parseHead` on a copy of the queue and return only
the root node; leftover tokens are silently discarded, as in `main`.  Each
unit of fuel consumed corresponds to at least one of: popping a token, or
entering one of the (at most two per token) nested procedures, so fuel
`2 * length + 2` exceeds the recursion depth on every input. -/
def parse (ts : List Token) : Except String Node :=
  (parseHead (2 * ts.length + 2) ts).map Prod.fst

/-! ## Numbered AST and the `dfs` traversal (repl.cpp, `dfs`, `typecheck`) -/

/-- AST nodes after the numbering pass: each node carries the type-variable
id stored in `Node::number` by `assign_numbers`. -/
inductive NNode where
  | Var (num : Nat) (val : String)
  | Int (num : Nat) (val : Int)
  | Bool (num : Nat) (val : Bool)
  | Sub (num : Nat) (n1 n2 : NNode)
  | Mul (num : Nat) (n1 n2 : NNode)
  | Div (num : Nat) (n1 n2 : NNode)
  | Lt (num : Nat) (n1 n2 : NNode)
  | If (num : Nat) (n1 n2 n3 : NNode)
  | Let (num : Nat) (n1 n2 n3 : NNode)
deriving DecidableEq, Repr

/-- The stored `number` of a numbered node. -/
def NNode.num : NNode → Nat
  | .Var n _ => n
  | .Int n _ => n
  | .Bool n _ => n
  | .Sub n _ _ => n
  | .Mul n _ _ => n
  | .Div n _ _ => n
  | .Lt n _ _ => n
  | .If n _ _ _ => n
  | .Let n _ _ _ => n

/-- The variable name of a numbered node, when it is a `Var`. -/
def NNode.varName : NNode → Option String
  | .Var _ s => some s
  | _ => none

/-- The list of subtrees in the order `dfs` visits them (node first, then
children left to right). -/
def preorderN : NNode → List NNode
  | .Var n s => [.Var n s]
  | .Int n v => [.Int n v]
  | .Bool n b => [.Bool n b]
  | .Sub n a b => .Sub n a b :: (preorderN a ++ preorderN b)
  | .Mul n a b => .Mul n a b :: (preorderN a ++ preorderN b)
  | .Div n a b => .Div n a b :: (preorderN a ++ preorderN b)
  | .Lt n a b => .Lt n a b :: (preorderN a ++ preorderN b)
  | .If n a b c => .If n a b c :: (preorderN a ++ preorderN b ++ preorderN c)
  | .Let n a b c => .Let n a b c :: (preorderN a ++ preorderN b ++ preorderN c)

/-- `dfs(root, f)` where `f` threads a state: `f` is applied to the node
first, then to the children left to right, mirroring `dfs` in the source. -/
def dfsFold {σ : Type} (f : σ → NNode → σ) : σ → NNode → σ
  | s, .Var n v => f s (.Var n v)
  | s, .Int n v => f s (.Int n v)
  | s, .Bool n v => f s (.Bool n v)
  | s, .Sub n a b => dfsFold f (dfsFold f (f s (.Sub n a b)) a) b
  | s, .Mul n a b => dfsFold f (dfsFold f (f s (.Mul n a b)) a) b
  | s, .Div n a b => dfsFold f (dfsFold f (f s (.Div n a b)) a) b
  | s, .Lt n a b => dfsFold f (dfsFold f (f s (.Lt n a b)) a) b
  | s, .If n a b c => dfsFold f (dfsFold f (dfsFold f (f s (.If n a b c)) a) b) c
  | s, .Let n a b c => dfsFold f (dfsFold f (dfsFold f (f s (.Let n a b c)) a) b) c

/-! ## Numbering (repl.cpp, `typecheck`, lambda `assign_numbers`) -/

/-- The `variable_number_map` of the numbering pass. -/
def VMap : Type := String → Option Nat

/-- The empty `variable_number_map`. -/
def vmEmpty : VMap := fun _ => none

/-- `variable_number_map[s] = v`. -/
def vmInsert (m : VMap) (s : String) (v : Nat) : VMap :=
  fun t => if t = s then some v else m t

/-- The numbering pass (`dfs(root, assign_numbers)`): a pre-order traversal
threading the counter and the `variable_number_map`, rebuilding the tree with
`number` fields set.  A `Var` whose name is in the map reuses the stored id;
every other node takes the counter and increments it. -/
def assignNumbers : Node → Nat → VMap → NNode × Nat × VMap
  | .Var s, c, m =>
    match m s with
    | some k => (.Var k s, c, m)
    | none => (.Var c s, c + 1, vmInsert m s c)
  | .Int v, c, m => (.Int c v, c + 1, m)
  | .Bool v, c, m => (.Bool c v, c + 1, m)
  | .Sub a b, c, m =>
    let r1 := assignNumbers a (c + 1) m
    let r2 := assignNumbers b r1.2.1 r1.2.2
    (.Sub c r1.1 r2.1, r2.2.1, r2.2.2)
  | .Mul a b, c, m =>
    let r1 := assignNumbers a (c + 1) m
    let r2 := assignNumbers b r1.2.1 r1.2.2
    (.Mul c r1.1 r2.1, r2.2.1, r2.2.2)
  | .Div a b, c, m =>
    let r1 := assignNumbers a (c + 1) m
    let r2 := assignNumbers b r1.2.1 r1.2.2
    (.Div c r1.1 r2.1, r2.2.1, r2.2.2)
  | .Lt a b, c, m =>
    let r1 := assignNumbers a (c + 1) m
    let r2 := assignNumbers b r1.2.1 r1.2.2
    (.Lt c r1.1 r2.1, r2.2.1, r2.2.2)
  | .If a b d, c, m =>
    let r1 := assignNumbers a (c + 1) m
    let r2 := assignNumbers b r1.2.1 r1.2.2
    let r3 := assignNumbers d r2.2.1 r2.2.2
    (.If c r1.1 r2.1 r3.1, r3.2.1, r3.2.2)
  | .Let a b d, c, m =>
    let r1 := assignNumbers a (c + 1) m
    let r2 := assignNumbers b r1.2.1 r1.2.2
    let r3 := assignNumbers d r2.2.1 r2.2.2
    (.Let c r1.1 r2.1 r3.1, r3.2.1, r3.2.2)

/-- The pre-order sequence of node shapes: `some s` for a `Var` named `s`,
`none` for any other node.  The numbering pass is driven entirely by this
sequence. -/
def shape : Node → List (Option String)
  | .Var s => [some s]
  | .Int _ => [none]
  | .Bool _ => [none]
  | .Sub a b => none :: (shape a ++ shape b)
  | .Mul a b => none :: (shape a ++ shape b)
  | .Div a b => none :: (shape a ++ shape b)
  | .Lt a b => none :: (shape a ++ shape b)
  | .If a b c => none :: (shape a ++ shape b ++ shape c)
  | .Let a b c => none :: (shape a ++ shape b ++ shape c)

/-- The numbering pass flattened to the pre-order shape sequence: returns the
assigned ids in pre-order together with the final counter and map. -/
def numberShape : List (Option String) → Nat → VMap → List Nat × Nat × VMap
  | [], c, m => ([], c, m)
  | none :: rest, c, m =>
    let r := numberShape rest (c + 1) m
    (c :: r.1, r.2)
  | some s :: rest, c, m =>
    match m s with
    | some k =>
      let r := numberShape rest c m
      (k :: r.1, r.2)
    | none =>
      let r := numberShape rest (c + 1) (vmInsert m s c)
      (c :: r.1, r.2)

/-- The pre-order list of assigned ids of a numbered tree. -/
def nums (nn : NNode) : List Nat := (preorderN nn).map NNode.num

/-- The pre-order list of node shapes of a numbered tree. -/
def namesN (nn : NNode) : List (Option String) := (preorderN nn).map NNode.varName

/-! ## Union-find (repl.cpp, `struct UnionFind`) -/

/-- The union-find structure: `n` slots; `prev` is the parent array, modelled
as a function (only indices below `n` are ever touched by the source). -/
structure UnionFind where
  n : Nat
  prev : Nat → Nat

/-- The `UnionFind(n)` constructor: every id is its own parent. -/
def UnionFind.init (n : Nat) : UnionFind := ⟨n, fun i => i⟩

/-- Pointwise update of a parent function: `prev[i] = v`. -/
def fupd (p : Nat → Nat) (i v : Nat) : Nat → Nat :=
  fun j => if j = i then v else p j

/-- The first loop of `find`: walk parent links from `r` to the root.  Fuel
`n` suffices: on a well-formed structure the nodes on the walk are distinct
members of `{0, ..., n-1}` (or the walk is empty). -/
def rootAux (p : Nat → Nat) : Nat → Nat → Nat
  | 0, r => r
  | fuel + 1, r => if p r = r then r else rootAux p fuel (p r)

/-- The second loop of `find`: relink every node on the walk from `i`
directly to the root `r` (full path compression). -/
def compressAux (p : Nat → Nat) (r : Nat) : Nat → Nat → (Nat → Nat)
  | 0, _ => p
  | fuel + 1, i => if p i = r then p else compressAux (fupd p i r) r fuel (p i)

/-- `find(x)`: returns the root and the structure after path compression. -/
def UnionFind.find (uf : UnionFind) (x : Nat) : Nat × UnionFind :=
  let r := rootAux uf.prev uf.n x
  (r, ⟨uf.n, compressAux uf.prev r uf.n x⟩)

/-- The root of `x`, ignoring the compression side effect of `find`. -/
def UnionFind.rootOf (uf : UnionFind) (x : Nat) : Nat := (uf.find x).1

/-- `join(x, y)`: `prev[find(x)] = find(y)`.  The second argument's root
becomes the root of the merged class.  (The right-hand `find(y)` runs first,
then `find(x)`; both only compress paths, so the order of the two calls does
not affect the roots.) -/
def UnionFind.join (uf : UnionFind) (x y : Nat) : UnionFind :=
  let fy := uf.find y
  let fx := fy.2.find x
  ⟨fx.2.n, fupd fx.2.prev fx.1 fy.1⟩

/-! ## Constraint generation (repl.cpp, `typecheck`, lambda
`generate_constraints`).  With `K` the final counter, the sentinel ids are
`INT = K` and `BOOL = K + 1`. -/

/-- The constraints pushed by one `generate_constraints` call, in push order. -/
def nodeEmit (K : Nat) : NNode → List (Nat × Nat)
  | .Var _ _ => []
  | .Int n _ => [(n, K)]
  | .Bool n _ => [(n, K + 1)]
  | .Sub n a b => [(n, K), (a.num, K), (b.num, K)]
  | .Mul n a b => [(n, K), (a.num, K), (b.num, K)]
  | .Div n a b => [(n, K), (a.num, K), (b.num, K)]
  | .Lt n a b => [(n, K + 1), (a.num, K), (b.num, K)]
  | .If n a b c => [(n, b.num), (a.num, K + 1), (b.num, c.num)]
  | .Let n a b c => [(n, c.num), (a.num, b.num)]

/-- `dfs(root, generate_constraints)`: the accumulated constraint vector. -/
def genConstraints (K : Nat) (nn : NNode) : List (Nat × Nat) :=
  dfsFold (fun acc cur => acc ++ nodeEmit K cur) [] nn

/-- The per-construct constraint table as the specification states it
(`self = INT` for an integer literal, and so on), for comparison with
`genConstraints`.  `K` is the number of type variables, `INT = K`,
`BOOL = K + 1`. -/
def specTable (K : Nat) : NNode → List (Nat × Nat)
  | .Var _ _ => []
  | .Int self _ => [(self, K)]
  | .Bool self _ => [(self, K + 1)]
  | .Sub self c1 c2 => [(self, K), (c1.num, K), (c2.num, K)]
  | .Mul self c1 c2 => [(self, K), (c1.num, K), (c2.num, K)]
  | .Div self c1 c2 => [(self, K), (c1.num, K), (c2.num, K)]
  | .Lt self c1 c2 => [(self, K + 1), (c1.num, K), (c2.num, K)]
  | .If self c t e => [(self, t.num), (c.num, K + 1), (t.num, e.num)]
  | .Let self name bound body => [(self, body.num), (name.num, bound.num)]

/-! ## Constraint solving (repl.cpp, `typecheck`, solve loop) -/

/-- One iteration of the solve loop on constraint `(x, y)`:
`is_type_variable` is `< K`; a ground root always survives as the root;
two distinct ground roots are a fatal type error. -/
def solveStep (K : Nat) (uf : UnionFind) (c : Nat × Nat) : Except String UnionFind :=
  let fx := uf.find c.1
  let fy := fx.2.find c.2
  let rx := fx.1
  let ry := fy.1
  let uf2 := fy.2
  if rx < K ∧ ry < K then .ok (uf2.join rx ry)
  else if rx < K then .ok (uf2.join rx ry)
  else if ry < K then .ok (uf2.join ry rx)
  else if rx = ry then .ok (uf2.join rx ry)
  else .error ("Type Error: cannot unify " ++ (if rx = K then "INT" else "BOOL") ++
    " and " ++ (if ry = K then "INT" else "BOOL"))

/-- The solve loop over the constraint vector, in emission order. -/
def solveAll (K : Nat) : UnionFind → List (Nat × Nat) → Except String UnionFind
  | uf, [] => .ok uf
  | uf, c :: rest =>
    match solveStep K uf c with
    | .error e => .error e
    | .ok uf2 => solveAll K uf2 rest

/-! ## Reporting (repl.cpp, `typecheck`, lambda `add_var`) -/

/-- Lexicographic comparison of character lists (the order `std::map`
keeps its `std::string` keys in). -/
def strLtB : List Char → List Char → Bool
  | [], [] => false
  | [], _ :: _ => true
  | _ :: _, [] => false
  | a :: as, b :: bs =>
    if a.toNat < b.toNat then true
    else if b.toNat < a.toNat then false
    else strLtB as bs

/-- `ret[key] = value` on the ordered `std::map<std::string, std::string>`:
insert keeping keys sorted, overwriting an existing key. -/
def mapAssign (m : List (String × String)) (k v : String) : List (String × String) :=
  match m with
  | [] => [(k, v)]
  | (k1, v1) :: rest =>
    if strLtB k.data k1.data then (k, v) :: (k1, v1) :: rest
    else if k = k1 then (k, v) :: rest
    else (k1, v1) :: mapAssign rest k v

/-- The type label of one variable node, mirroring the branch structure of
`add_var` (each branch calls `find` again, threading the compression). -/
def varLabel (K : Nat) (uf : UnionFind) (num : Nat) : String × UnionFind :=
  let f1 := uf.find num
  if f1.1 = K then ("INT", f1.2)
  else
    let f2 := f1.2.find num
    if f2.1 = K + 1 then ("BOOL", f2.2)
    else
      let f3 := f2.2.find num
      ("GENERICS-" ++ toString f3.1, f3.2)

/-- One `add_var` visit: a `Var` node reports its label and threads the
compressed union-find; any other node is skipped. -/
def addVarStep (K : Nat) (s : UnionFind × List (String × String)) (cur : NNode) :
    UnionFind × List (String × String) :=
  match cur with
  | .Var num name =>
    let r := varLabel K s.1 num
    (r.2, mapAssign s.2 name r.1)
  | _ => s

/-- `dfs(root, add_var)`: build the variable-to-type map. -/
def buildVarMap (K : Nat) (uf : UnionFind) (nn : NNode) :
    UnionFind × List (String × String) :=
  dfsFold (addVarStep K) (uf, []) nn

/-- `typecheck(root)`: numbering, constraint generation, solving, and the
variable-to-type report. -/
def typecheck (root : Node) : Except String (List (String × String)) :=
  let r := assignNumbers root 0 vmEmpty
  let nn := r.1
  let K := r.2.1
  match solveAll K (UnionFind.init (K + 2)) (genConstraints K nn) with
  | .error e => .error e
  | .ok uf => .ok (buildVarMap K uf nn).2

/-- One iteration of `main`: tokenize, parse, typecheck. -/
def typecheckLine (s : String) : Except String (List (String × String)) :=
  match tokenize s with
  | .error e => .error e
  | .ok ts =>
    match parse ts with
    | .error e => .error e
    | .ok root => typecheck root

/-! ## Free variables (specification-level, for stating which expressions
have every variable occurrence let-bound) -/

/-- The free variables of an expression: a `let` binds its name in the body
only.  This is the specification-level notion used to state claims about
expressions with no free variables. -/
def freeVars : Node → List String
  | .Var s => [s]
  | .Int _ => []
  | .Bool _ => []
  | .Sub a b => freeVars a ++ freeVars b
  | .Mul a b => freeVars a ++ freeVars b
  | .Div a b => freeVars a ++ freeVars b
  | .Lt a b => freeVars a ++ freeVars b
  | .If a b c => freeVars a ++ freeVars b ++ freeVars c
  | .Let a b c =>
    match a with
    | .Var s => freeVars b ++ (freeVars c).filter (fun t => t ≠ s)
    | _ => freeVars a ++ freeVars b ++ freeVars c

/-- The variable names occurring in an expression (bound or free). -/
def varNames : Node → List String
  | .Var s => [s]
  | .Int _ => []
  | .Bool _ => []
  | .Sub a b => varNames a ++ varNames b
  | .Mul a b => varNames a ++ varNames b
  | .Div a b => varNames a ++ varNames b
  | .Lt a b => varNames a ++ varNames b
  | .If a b c => varNames a ++ varNames b ++ varNames c
  | .Let a b c => varNames a ++ varNames b ++ varNames c

/-! ## Specification-level notions used by the theorems -/

/-- `k`-fold application of a parent function. -/
def iterP (p : Nat → Nat) : Nat → Nat → Nat
  | 0, i => i
  | k + 1, i => iterP p k (p i)

/-- `x` reaches the root `r` by following parent links. -/
def Reaches (p : Nat → Nat) (x r : Nat) : Prop :=
  p r = r ∧ ∃ k, iterP p k x = r

/-- Well-formedness of a union-find state: parent links stay inside
`{0, ..., n-1}`, ids outside are untouched self-loops, and every chain of
parent links reaches a root (no cycles other than self-loops).  This is the
representation invariant of the C++ structure: `find` loops forever on a
state violating it. -/
def WF (uf : UnionFind) : Prop :=
  (∀ i, i < uf.n → uf.prev i < uf.n) ∧
  (∀ i, uf.n ≤ i → uf.prev i = i) ∧
  (∀ i, ∃ r, Reaches uf.prev i r)

/-- Deduplication keeping first occurrences: the sequence of distinct values
in order of first appearance. -/
def dedupF : List Nat → List Nat
  | [] => []
  | a :: l => a :: dedupF (l.filter (fun x => x ≠ a))
termination_by l => l.length
decreasing_by
  exact Nat.lt_succ_of_le (List.length_filter_le _ _)

/-- The classification of a reported type label: it is `INT` when the
variable's representative is the `INT` sentinel `K`, `BOOL` when it is the
`BOOL` sentinel `K + 1`, and `GENERICS-<representative>` otherwise. -/
def LabelOf (K : Nat) (uf : UnionFind) (num : Nat) (t : String) : Prop :=
  (t = "INT" ∧ uf.rootOf num = K) ∨
  (t = "BOOL" ∧ uf.rootOf num = K + 1) ∨
  (t = "GENERICS-" ++ toString (uf.rootOf num) ∧
    uf.rootOf num ≠ K ∧ uf.rootOf num ≠ K + 1)

/-! ## Union-find theory -/

theorem iterP_add (p : Nat → Nat) (a b i : Nat) :
    iterP p (a + b) i = iterP p b (iterP p a i) := by
  induction a generalizing i with
  | zero => simp [iterP]
  | succ a ih =>
    rw [Nat.succ_add]
    show iterP p (a + b) (p i) = iterP p b (iterP p a (p i))
    exact ih (p i)

theorem iterP_root (p : Nat → Nat) (r : Nat) (h : p r = r) : ∀ k, iterP p k r = r := by
  intro k
  induction k with
  | zero => rfl
  | succ k ih => show iterP p k (p r) = r; rw [h]; exact ih

theorem reaches_unique {p : Nat → Nat} {x r s : Nat}
    (h1 : Reaches p x r) (h2 : Reaches p x s) : r = s := by
  obtain ⟨hr, k1, hk1⟩ := h1
  obtain ⟨hs, k2, hk2⟩ := h2
  rcases Nat.le_total k1 k2 with h | h
  · have : iterP p k2 x = iterP p (k2 - k1) (iterP p k1 x) := by
      rw [← iterP_add]; congr 1; omega
    rw [hk1, iterP_root p r hr] at this
    rw [← hk2, this]
  · have : iterP p k1 x = iterP p (k1 - k2) (iterP p k2 x) := by
      rw [← iterP_add]; congr 1; omega
    rw [hk2, iterP_root p s hs] at this
    rw [← hk1, this]

theorem reaches_self {p : Nat → Nat} {r : Nat} (h : p r = r) : Reaches p r r :=
  ⟨h, 0, rfl⟩

theorem reaches_step {p : Nat → Nat} {x r : Nat} (h : Reaches p (p x) r) : Reaches p x r := by
  obtain ⟨hr, k, hk⟩ := h
  exact ⟨hr, k + 1, hk⟩

theorem reaches_tail {p : Nat → Nat} {x r : Nat} (h : Reaches p x r) (hne : x ≠ r) :
    Reaches p (p x) r := by
  obtain ⟨hr, k, hk⟩ := h
  cases k with
  | zero => exact absurd hk hne
  | succ k => exact ⟨hr, k, hk⟩

/-- Parent chains starting below `n` stay below `n`. -/
theorem iterP_lt {uf : UnionFind} (h : WF uf) {x : Nat} (hx : x < uf.n) :
    ∀ k, iterP uf.prev k x < uf.n := by
  intro k
  induction k generalizing x with
  | zero => exact hx
  | succ k ih => exact ih (h.1 x hx)

/-- On a well-formed structure every chain reaches a root within `n` steps. -/
theorem hit_le_n {uf : UnionFind} (h : WF uf) (x : Nat) :
    ∃ k, k ≤ uf.n ∧ uf.prev (iterP uf.prev k x) = iterP uf.prev k x := by
  by_cases hx : x < uf.n
  · obtain ⟨r, hr⟩ := h.2.2 x
    obtain ⟨hroot, k1, hk1⟩ := hr
    have hex : ∃ k, uf.prev (iterP uf.prev k x) = iterP uf.prev k x := ⟨k1, by rw [hk1]; exact hroot⟩
    set k0 := Nat.find hex with hk0def
    have hk0 : uf.prev (iterP uf.prev k0 x) = iterP uf.prev k0 x := Nat.find_spec hex
    have hmin : ∀ j, j < k0 → uf.prev (iterP uf.prev j x) ≠ iterP uf.prev j x :=
      fun j hj => Nat.find_min hex hj
    refine ⟨k0, ?_, hk0⟩
    by_contra hgt
    push_neg at hgt
    have hinj : ∀ a b, a ≤ k0 → b ≤ k0 → iterP uf.prev a x = iterP uf.prev b x → a = b := by
      intro a b ha hb heq
      by_contra hne
      rcases Nat.lt_or_ge a b with hab | hab
      · have : iterP uf.prev (a + (k0 - b)) x = iterP uf.prev k0 x := by
          rw [iterP_add]
          conv_rhs => rw [show k0 = b + (k0 - b) by omega, iterP_add]
          rw [heq]
        have hroot2 : uf.prev (iterP uf.prev (a + (k0 - b)) x) =
            iterP uf.prev (a + (k0 - b)) x := by rw [this]; exact hk0
        exact hmin (a + (k0 - b)) (by omega) hroot2
      · have hba : b < a := by omega
        have : iterP uf.prev (b + (k0 - a)) x = iterP uf.prev k0 x := by
          rw [iterP_add]
          conv_rhs => rw [show k0 = a + (k0 - a) by omega, iterP_add]
          rw [heq]
        have hroot2 : uf.prev (iterP uf.prev (b + (k0 - a)) x) =
            iterP uf.prev (b + (k0 - a)) x := by rw [this]; exact hk0
        exact hmin (b + (k0 - a)) (by omega) hroot2
    have hf : Function.Injective (fun j : Fin (k0 + 1) => (⟨iterP uf.prev j.1 x,
        iterP_lt h hx j.1⟩ : Fin uf.n)) := by
      intro a b hab
      have := hinj a.1 b.1 (by omega) (by omega) (by simpa using congrArg Fin.val hab)
      exact Fin.ext this
    have := Fintype.card_le_of_injective _ hf
    simp [Fintype.card_fin] at this
    omega
  · push_neg at hx
    exact ⟨0, Nat.zero_le _, h.2.1 x hx⟩

theorem rootAux_spec (p : Nat → Nat) :
    ∀ fuel x k, k ≤ fuel → p (iterP p k x) = iterP p k x →
      Reaches p x (rootAux p fuel x) := by
  intro fuel
  induction fuel with
  | zero =>
    intro x k hk hroot
    interval_cases k
    exact ⟨hroot, 0, rfl⟩
  | succ fuel ih =>
    intro x k hk hroot
    show Reaches p x (if p x = x then x else rootAux p fuel (p x))
    by_cases hx : p x = x
    · simp only [hx, if_pos]
      exact reaches_self hx
    · rw [if_neg hx]
      cases k with
      | zero => exact absurd hroot hx
      | succ k =>
        have : iterP p (k + 1) x = iterP p k (p x) := rfl
        rw [this] at hroot
        exact reaches_step (ih (p x) k (by omega) hroot)

/-- The first loop of `find` computes a genuine root on well-formed states. -/
theorem find_reaches {uf : UnionFind} (h : WF uf) (x : Nat) :
    Reaches uf.prev x ((uf.find x).1) := by
  obtain ⟨k, hk, hroot⟩ := hit_le_n h x
  exact rootAux_spec uf.prev uf.n x k hk hroot

theorem rootOf_root {uf : UnionFind} (h : WF uf) {r : Nat} (hr : uf.prev r = r) :
    uf.rootOf r = r :=
  reaches_unique (find_reaches h r) (reaches_self hr)

theorem rootOf_is_root {uf : UnionFind} (h : WF uf) (x : Nat) :
    uf.prev (uf.rootOf x) = uf.rootOf x :=
  (find_reaches h x).1

/-- Redirecting `x` straight to its own root preserves every reachability
fact (both directions). -/
theorem reaches_fupd_iff {p : Nat → Nat} {x r : Nat} (hx : Reaches p x r) (z s : Nat) :
    Reaches p z s ↔ Reaches (fupd p x r) z s := by
  have hr : p r = r := hx.1
  have hqroot : ∀ t, p t = t → fupd p x r t = t := by
    intro t ht
    by_cases htx : t = x
    · subst htx
      have : r = t := reaches_unique hx (reaches_self ht)
      simp [fupd, this]
    · simp [fupd, htx, ht]
  have hproot : ∀ t, fupd p x r t = t → p t = t := by
    intro t ht
    by_cases htx : t = x
    · subst htx
      simp only [fupd, if_pos rfl] at ht
      rw [← ht] at hx ⊢
      exact hx.1
    · simpa [fupd, htx] using ht
  constructor
  · rintro ⟨hs, k, hk⟩
    induction k generalizing z with
    | zero =>
      cases hk
      exact reaches_self (hqroot z hs)
    | succ k ih =>
      by_cases hzx : z = x
      · subst hzx
        have hsr : s = r := reaches_unique ⟨hs, k + 1, hk⟩ hx
        subst hsr
        exact ⟨hqroot s hs, 1, by simp [iterP, fupd]⟩
      · have : iterP p (k + 1) z = iterP p k (p z) := rfl
        rw [this] at hk
        have := ih (p z) hk
        obtain ⟨h1, j, hj⟩ := this
        refine ⟨h1, j + 1, ?_⟩
        show iterP (fupd p x r) j (fupd p x r z) = s
        rwa [show fupd p x r z = p z by simp [fupd, hzx]]
  · rintro ⟨hs, k, hk⟩
    induction k generalizing z with
    | zero =>
      cases hk
      exact reaches_self (hproot z hs)
    | succ k ih =>
      by_cases hzx : z = x
      · have hq : fupd p x r z = r := by simp [fupd, hzx]
        have hstep : iterP (fupd p x r) (k + 1) z = iterP (fupd p x r) k (fupd p x r z) := rfl
        rw [hstep, hq] at hk
        have hrs := ih r hk
        have hsr : s = r := reaches_unique hrs (reaches_self hr)
        subst hsr
        rw [hzx]
        exact hx
      · have hstep : iterP (fupd p x r) (k + 1) z = iterP (fupd p x r) k (fupd p x r z) := rfl
        rw [hstep, show fupd p x r z = p z by simp [fupd, hzx]] at hk
        exact reaches_step (ih (p z) hk)

theorem compressAux_of_eq (p : Nat → Nat) (r : Nat) (fuel x : Nat) (hx : p x = r) :
    compressAux p r fuel x = p := by
  cases fuel with
  | zero => rfl
  | succ fuel => simp [compressAux, hx]

/-- Path compression preserves every reachability fact. -/
theorem compressAux_reaches {r : Nat} :
    ∀ (fuel : Nat) (p : Nat → Nat) (x : Nat), Reaches p x r →
      ∀ z s, Reaches p z s ↔ Reaches (compressAux p r fuel x) z s := by
  intro fuel
  induction fuel with
  | zero => intro p x _ z s; rfl
  | succ fuel ih =>
    intro p x hx z s
    show Reaches p z s ↔ Reaches (if p x = r then p else compressAux (fupd p x r) r fuel (p x)) z s
    by_cases hpx : p x = r
    · rw [if_pos hpx]
    · rw [if_neg hpx]
      have hxr : x ≠ r := by
        intro he
        subst he
        exact hpx hx.1
      have htail : Reaches p (p x) r := reaches_tail hx hxr
      have htail2 : Reaches (fupd p x r) (p x) r := (reaches_fupd_iff hx (p x) r).mp htail
      rw [reaches_fupd_iff hx z s]
      exact ih (fupd p x r) (p x) htail2 z s

/-- Every slot of the compressed array holds its old value or the root. -/
theorem compressAux_cases :
    ∀ (fuel : Nat) (p : Nat → Nat) (r x j : Nat),
      compressAux p r fuel x j = p j ∨ compressAux p r fuel x j = r := by
  intro fuel
  induction fuel with
  | zero => intro p r x j; exact Or.inl rfl
  | succ fuel ih =>
    intro p r x j
    simp only [compressAux]
    by_cases hpx : p x = r
    · rw [if_pos hpx]; exact Or.inl rfl
    · rw [if_neg hpx]
      rcases ih (fupd p x r) r (p x) j with h | h
      · rw [h]
        by_cases hjx : j = x
        · exact Or.inr (by simp [fupd, hjx])
        · exact Or.inl (by simp [fupd, hjx])
      · exact Or.inr h

/-- Roots of in-range ids are in range. -/
theorem rootOf_lt {uf : UnionFind} (h : WF uf) {x : Nat} (hx : x < uf.n) :
    uf.rootOf x < uf.n := by
  obtain ⟨hroot, k, hk⟩ := find_reaches h x
  have := iterP_lt h hx k
  rwa [hk] at this

/-- `find` returns the root, preserves well-formedness, preserves every
class's root, and keeps `n`. -/
theorem find_spec {uf : UnionFind} (h : WF uf) (x : Nat) :
    Reaches uf.prev x ((uf.find x).1) ∧ WF (uf.find x).2 ∧
      (∀ z, (uf.find x).2.rootOf z = uf.rootOf z) ∧ (uf.find x).2.n = uf.n := by
  have hre : Reaches uf.prev x (uf.rootOf x) := find_reaches h x
  have hprev2 : (uf.find x).2.prev = compressAux uf.prev (uf.rootOf x) uf.n x := rfl
  have hn2 : (uf.find x).2.n = uf.n := rfl
  have hiff : ∀ z s, Reaches uf.prev z s ↔ Reaches ((uf.find x).2.prev) z s := by
    rw [hprev2]
    exact compressAux_reaches uf.n uf.prev x hre
  have hwf2 : WF (uf.find x).2 := by
    refine ⟨?_, ?_, ?_⟩
    · intro j hj
      rw [hn2] at hj
      rw [hprev2, hn2]
      by_cases hx : x < uf.n
      · rcases compressAux_cases uf.n uf.prev (uf.rootOf x) x j with hc | hc
        · rw [hc]; exact h.1 j hj
        · rw [hc]; exact rootOf_lt h hx
      · push_neg at hx
        have hpx : uf.prev x = x := h.2.1 x hx
        have hrx : uf.rootOf x = x := reaches_unique hre (reaches_self hpx)
        rw [compressAux_of_eq uf.prev (uf.rootOf x) uf.n x (by rw [hrx]; exact hpx)]
        exact h.1 j hj
    · intro j hj
      rw [hn2] at hj
      have hroot : uf.prev j = j := h.2.1 j hj
      have : Reaches ((uf.find x).2.prev) j j := (hiff j j).mp (reaches_self hroot)
      exact this.1
    · intro i
      obtain ⟨s, hs⟩ := h.2.2 i
      exact ⟨s, (hiff i s).mp hs⟩
  refine ⟨hre, hwf2, ?_, hn2⟩
  intro z
  have h1 : Reaches ((uf.find x).2.prev) z ((uf.find x).2.rootOf z) := find_reaches hwf2 z
  have h2 : Reaches ((uf.find x).2.prev) z (uf.rootOf z) := (hiff z _).mp (find_reaches h z)
  exact reaches_unique h1 h2

/-- `join(x, y)` on a well-formed state: well-formedness is preserved and the
class of `x` is absorbed into the class of `y`, whose old root survives.
Below, `uf1` abbreviates the state after `find(y)` and `uf2` the state after
the subsequent `find(x)`. -/
theorem join_spec {uf : UnionFind} (h : WF uf) {x y : Nat}
    (hx : x < uf.n) (hy : y < uf.n) :
    WF (uf.join x y) ∧ (uf.join x y).n = uf.n ∧
      ∀ z, (uf.join x y).rootOf z =
        if uf.rootOf z = uf.rootOf x then uf.rootOf y else uf.rootOf z := by
  obtain ⟨hrey, hwf1, hpres1, hn1⟩ := find_spec h y
  obtain ⟨hrex, hwf2, hpres2, hn2⟩ := find_spec hwf1 x
  have hRX : (((uf.find y).2).find x).1 = uf.rootOf x := hpres1 x
  have hjoin : uf.join x y =
      ⟨(((uf.find y).2).find x).2.n,
        fupd (((uf.find y).2).find x).2.prev (uf.rootOf x) (uf.rootOf y)⟩ := by
    rw [← hRX]
    rfl
  have hroot2x : (((uf.find y).2).find x).2.rootOf (uf.rootOf x) = uf.rootOf x := by
    rw [hpres2, hpres1]
    exact rootOf_root h (rootOf_is_root h x)
  have hroot2y : (((uf.find y).2).find x).2.rootOf (uf.rootOf y) = uf.rootOf y := by
    rw [hpres2, hpres1]
    exact rootOf_root h (rootOf_is_root h y)
  have hrxr : (((uf.find y).2).find x).2.prev (uf.rootOf x) = uf.rootOf x := by
    have := rootOf_is_root hwf2 (uf.rootOf x)
    rwa [hroot2x] at this
  have hryr : (((uf.find y).2).find x).2.prev (uf.rootOf y) = uf.rootOf y := by
    have := rootOf_is_root hwf2 (uf.rootOf y)
    rwa [hroot2y] at this
  have hrxn : uf.rootOf x < uf.n := rootOf_lt h hx
  have hryn : uf.rootOf y < uf.n := rootOf_lt h hy
  have hn21 : (((uf.find y).2).find x).2.n = uf.n := by rw [hn2, hn1]
  have hqry : fupd (((uf.find y).2).find x).2.prev (uf.rootOf x) (uf.rootOf y)
      (uf.rootOf y) = uf.rootOf y := by
    by_cases hc : uf.rootOf y = uf.rootOf x
    · simp [fupd, hc]
    · simp [fupd, hc, hryr]
  have hforward : ∀ z s, Reaches (((uf.find y).2).find x).2.prev z s →
      Reaches (fupd (((uf.find y).2).find x).2.prev (uf.rootOf x) (uf.rootOf y)) z
        (if s = uf.rootOf x then uf.rootOf y else s) := by
    rintro z s ⟨hs, k, hk⟩
    induction k generalizing z with
    | zero =>
      have hz : z = s := hk
      subst hz
      by_cases hc : z = uf.rootOf x
      · rw [if_pos hc, hc]
        exact ⟨hqry, 1, by simp [iterP, fupd]⟩
      · rw [if_neg hc]
        exact reaches_self (by simp [fupd, hc, hs])
    | succ k ih =>
      by_cases hc : z = uf.rootOf x
      · have hkk : iterP (((uf.find y).2).find x).2.prev (k + 1) z = z := by
          rw [hc]
          exact iterP_root _ _ hrxr (k + 1)
        rw [hkk] at hk
        subst hk
        rw [if_pos hc, hc]
        exact ⟨hqry, 1, by simp [iterP, fupd]⟩
      · have hstep : iterP (((uf.find y).2).find x).2.prev (k + 1) z =
            iterP (((uf.find y).2).find x).2.prev k ((((uf.find y).2).find x).2.prev z) := rfl
        rw [hstep] at hk
        obtain ⟨h1, j, hj⟩ := ih ((((uf.find y).2).find x).2.prev z) hk
        refine ⟨h1, j + 1, ?_⟩
        show iterP _ j (fupd (((uf.find y).2).find x).2.prev (uf.rootOf x) (uf.rootOf y) z) = _
        rwa [show fupd (((uf.find y).2).find x).2.prev (uf.rootOf x) (uf.rootOf y) z =
          (((uf.find y).2).find x).2.prev z by simp [fupd, hc]]
  have hwfj : WF (uf.join x y) := by
    rw [hjoin]
    refine ⟨?_, ?_, ?_⟩
    · intro j hj
      by_cases hc : j = uf.rootOf x
      · show fupd _ _ _ j < _
        rw [hc, show fupd (((uf.find y).2).find x).2.prev (uf.rootOf x) (uf.rootOf y)
          (uf.rootOf x) = uf.rootOf y from by simp [fupd]]
        show uf.rootOf y < (((uf.find y).2).find x).2.n
        rw [hn21]
        exact hryn
      · show fupd _ _ _ j < _
        rw [show fupd (((uf.find y).2).find x).2.prev (uf.rootOf x) (uf.rootOf y) j =
          (((uf.find y).2).find x).2.prev j from by simp [fupd, hc]]
        exact hwf2.1 j hj
    · intro j hj
      have hjrx : j ≠ uf.rootOf x := by
        intro he
        have hj2 : (((uf.find y).2).find x).2.n ≤ j := hj
        rw [he, hn21] at hj2
        omega
      show fupd _ _ _ j = j
      rw [show fupd (((uf.find y).2).find x).2.prev (uf.rootOf x) (uf.rootOf y) j =
        (((uf.find y).2).find x).2.prev j from by simp [fupd, hjrx]]
      exact hwf2.2.1 j hj
    · intro i
      obtain ⟨s, hs⟩ := hwf2.2.2 i
      exact ⟨if s = uf.rootOf x then uf.rootOf y else s, hforward i s hs⟩
  have hnj : (uf.join x y).n = uf.n := by rw [hjoin]; exact hn21
  refine ⟨hwfj, hnj, ?_⟩
  intro z
  have h1 : Reaches (uf.join x y).prev z ((uf.join x y).rootOf z) := find_reaches hwfj z
  have h2pre : Reaches (((uf.find y).2).find x).2.prev z
      ((((uf.find y).2).find x).2.rootOf z) := find_reaches hwf2 z
  have h2 : Reaches (uf.join x y).prev z
      (if (((uf.find y).2).find x).2.rootOf z = uf.rootOf x then uf.rootOf y
        else (((uf.find y).2).find x).2.rootOf z) := by
    rw [hjoin]
    exact hforward z _ h2pre
  have heq := reaches_unique h1 h2
  rw [heq, hpres2, hpres1]

/-- The initial union-find state is well-formed. -/
theorem WF_init (n : Nat) : WF (UnionFind.init n) :=
  ⟨fun _ hi => hi, fun _ _ => rfl, fun i => ⟨i, rfl, 0, rfl⟩⟩

theorem rootOf_init (n x : Nat) : (UnionFind.init n).rootOf x = x :=
  rootOf_root (WF_init n) rfl

/-! ## Solve-loop theory -/

/-- A successful `solveStep` preserves well-formedness and `n`, and merges
classes with the tie-break policy of the source: a type-variable root is
absorbed into the other root's class (so a ground root always survives),
and two equal ground roots change no class. -/
theorem solveStep_ok_spec {K : Nat} {uf : UnionFind} (h : WF uf) {x y : Nat}
    (hx : x < uf.n) (hy : y < uf.n) {uf2 : UnionFind}
    (hok : solveStep K uf (x, y) = .ok uf2) :
    WF uf2 ∧ uf2.n = uf.n ∧
      ((uf.rootOf x < K ∧
          ∀ z, uf2.rootOf z =
            if uf.rootOf z = uf.rootOf x then uf.rootOf y else uf.rootOf z) ∨
        (¬ uf.rootOf x < K ∧ uf.rootOf y < K ∧
          ∀ z, uf2.rootOf z =
            if uf.rootOf z = uf.rootOf y then uf.rootOf x else uf.rootOf z) ∨
        (uf.rootOf x = uf.rootOf y ∧ ∀ z, uf2.rootOf z = uf.rootOf z)) := by
  obtain ⟨hre1, hwf1, hpres1, hn1⟩ := find_spec h x
  obtain ⟨hre2, hwf2, hpres2, hn2⟩ := find_spec hwf1 y
  have hRX : (uf.find x).1 = uf.rootOf x := rfl
  have hRY : ((uf.find x).2.find y).1 = uf.rootOf y := hpres1 y
  have hpresB : ∀ z, ((uf.find x).2.find y).2.rootOf z = uf.rootOf z := by
    intro z
    rw [hpres2, hpres1]
  have hnn : ((uf.find x).2.find y).2.n = uf.n := by rw [hn2, hn1]
  have hrootx : ((uf.find x).2.find y).2.rootOf (uf.rootOf x) = uf.rootOf x := by
    rw [hpresB]
    exact rootOf_root h (rootOf_is_root h x)
  have hrooty : ((uf.find x).2.find y).2.rootOf (uf.rootOf y) = uf.rootOf y := by
    rw [hpresB]
    exact rootOf_root h (rootOf_is_root h y)
  have hrxltn : uf.rootOf x < ((uf.find x).2.find y).2.n := by
    rw [hnn]
    exact rootOf_lt h hx
  have hryltn : uf.rootOf y < ((uf.find x).2.find y).2.n := by
    rw [hnn]
    exact rootOf_lt h hy
  simp only [solveStep] at hok
  rw [hRX, hRY] at hok
  split_ifs at hok with h1 h2 h3 h4
  · obtain ⟨hwfj, hnj, hform⟩ := join_spec hwf2 hrxltn hryltn
    cases hok
    refine ⟨hwfj, by rw [hnj, hnn], Or.inl ⟨h1.1, ?_⟩⟩
    intro z
    rw [hform z, hrootx, hrooty, hpresB]
  · obtain ⟨hwfj, hnj, hform⟩ := join_spec hwf2 hrxltn hryltn
    cases hok
    refine ⟨hwfj, by rw [hnj, hnn], Or.inl ⟨h2, ?_⟩⟩
    intro z
    rw [hform z, hrootx, hrooty, hpresB]
  · obtain ⟨hwfj, hnj, hform⟩ := join_spec hwf2 hryltn hrxltn
    cases hok
    refine ⟨hwfj, by rw [hnj, hnn], Or.inr (Or.inl ⟨h2, h3, ?_⟩)⟩
    intro z
    rw [hform z, hrootx, hrooty, hpresB]
  · obtain ⟨hwfj, hnj, hform⟩ := join_spec hwf2 hrxltn hryltn
    cases hok
    refine ⟨hwfj, by rw [hnj, hnn], Or.inr (Or.inr ⟨h4, ?_⟩)⟩
    intro z
    rw [hform z, hrootx, hrooty, hpresB]
    by_cases hc : uf.rootOf z = uf.rootOf x
    · rw [if_pos hc, hc, h4]
    · rw [if_neg hc]

/-- A failing `solveStep` means both roots were ground and different, and the
error message names both conflicting ground types. -/
theorem solveStep_error_spec {K : Nat} {uf : UnionFind} (h : WF uf) {x y : Nat}
    {e : String} (he : solveStep K uf (x, y) = .error e) :
    ¬ uf.rootOf x < K ∧ ¬ uf.rootOf y < K ∧ uf.rootOf x ≠ uf.rootOf y ∧
      e = "Type Error: cannot unify " ++ (if uf.rootOf x = K then "INT" else "BOOL") ++
        " and " ++ (if uf.rootOf y = K then "INT" else "BOOL") := by
  obtain ⟨hre1, hwf1, hpres1, hn1⟩ := find_spec h x
  have hRX : (uf.find x).1 = uf.rootOf x := rfl
  have hRY : ((uf.find x).2.find y).1 = uf.rootOf y := hpres1 y
  simp only [solveStep] at he
  rw [hRX, hRY] at he
  by_cases h1 : uf.rootOf x < K ∧ uf.rootOf y < K
  · rw [if_pos h1] at he
    exact absurd he (by simp)
  · rw [if_neg h1] at he
    by_cases h2 : uf.rootOf x < K
    · rw [if_pos h2] at he
      exact absurd he (by simp)
    · rw [if_neg h2] at he
      by_cases h3 : uf.rootOf y < K
      · rw [if_pos h3] at he
        exact absurd he (by simp)
      · rw [if_neg h3] at he
        by_cases h4 : uf.rootOf x = uf.rootOf y
        · rw [if_pos h4] at he
          exact absurd he (by simp)
        · rw [if_neg h4] at he
          cases he
          exact ⟨h2, h3, h4, rfl⟩

/-- Conversely, two distinct ground roots make `solveStep` fail with the
message naming both. -/
theorem solveStep_error_of {K : Nat} {uf : UnionFind} (h : WF uf) {x y : Nat}
    (h1 : ¬ uf.rootOf x < K) (h2 : ¬ uf.rootOf y < K) (h3 : uf.rootOf x ≠ uf.rootOf y) :
    solveStep K uf (x, y) =
      .error ("Type Error: cannot unify " ++ (if uf.rootOf x = K then "INT" else "BOOL") ++
        " and " ++ (if uf.rootOf y = K then "INT" else "BOOL")) := by
  obtain ⟨hre1, hwf1, hpres1, hn1⟩ := find_spec h x
  have hRX : (uf.find x).1 = uf.rootOf x := rfl
  have hRY : ((uf.find x).2.find y).1 = uf.rootOf y := hpres1 y
  simp only [solveStep]
  rw [hRX, hRY]
  rw [if_neg (by tauto), if_neg h1, if_neg h2, if_neg h3]

/-- `solveAll` preserves well-formedness and `n` on in-range constraints. -/
theorem solveAll_wf {K : Nat} :
    ∀ (cs : List (Nat × Nat)) (uf uf1 : UnionFind), WF uf →
      (∀ c ∈ cs, c.1 < uf.n ∧ c.2 < uf.n) →
      solveAll K uf cs = .ok uf1 → WF uf1 ∧ uf1.n = uf.n := by
  intro cs
  induction cs with
  | nil =>
    intro uf uf1 h _ hok
    cases hok
    exact ⟨h, rfl⟩
  | cons c rest ih =>
    intro uf uf1 h hin hok
    simp only [solveAll] at hok
    cases hstep : solveStep K uf c with
    | error e => rw [hstep] at hok; exact absurd hok (by simp)
    | ok ufm =>
      rw [hstep] at hok
      obtain ⟨hc1, hc2⟩ := hin c (List.mem_cons_self c rest)
      obtain ⟨hwfm, hnm, _⟩ := solveStep_ok_spec h hc1 hc2 (by rw [← hstep])
      have hinm : ∀ d ∈ rest, d.1 < ufm.n ∧ d.2 < ufm.n := by
        intro d hd
        rw [hnm]
        exact hin d (List.mem_cons_of_mem c hd)
      obtain ⟨hwf1, hn1⟩ := ih ufm uf1 hwfm hinm hok
      exact ⟨hwf1, by rw [hn1, hnm]⟩

/-- The ground sentinels `INT = K` and `BOOL = K + 1` stay their own roots
through the whole solve loop: no join ever hangs a ground root under
anything else. -/
theorem solveAll_ground {K : Nat} :
    ∀ (cs : List (Nat × Nat)) (uf uf1 : UnionFind), WF uf → uf.n = K + 2 →
      (∀ c ∈ cs, c.1 < K + 2 ∧ c.2 < K + 2) →
      uf.rootOf K = K → uf.rootOf (K + 1) = K + 1 →
      solveAll K uf cs = .ok uf1 →
      uf1.rootOf K = K ∧ uf1.rootOf (K + 1) = K + 1 := by
  intro cs
  induction cs with
  | nil =>
    intro uf uf1 _ _ _ hK hB hok
    cases hok
    exact ⟨hK, hB⟩
  | cons c rest ih =>
    intro uf uf1 h hn hin hK hB hok
    simp only [solveAll] at hok
    cases hstep : solveStep K uf c with
    | error e =>
      rw [hstep] at hok
      exact absurd hok (by simp)
    | ok ufm =>
      rw [hstep] at hok
      obtain ⟨hc1, hc2⟩ := hin c (List.mem_cons_self c rest)
      have hc1n : c.1 < uf.n := by rw [hn]; exact hc1
      have hc2n : c.2 < uf.n := by rw [hn]; exact hc2
      obtain ⟨hwfm, hnm, hcase⟩ := solveStep_ok_spec h hc1n hc2n (by rw [← hstep])
      have hKm : ufm.rootOf K = K ∧ ufm.rootOf (K + 1) = K + 1 := by
        rcases hcase with ⟨hvar, hform⟩ | ⟨_, hvar, hform⟩ | ⟨_, hform⟩
        · constructor
          · rw [hform K, hK, if_neg (by omega)]
          · rw [hform (K + 1), hB, if_neg (by omega)]
        · constructor
          · rw [hform K, hK, if_neg (by omega)]
          · rw [hform (K + 1), hB, if_neg (by omega)]
        · constructor
          · rw [hform K]; exact hK
          · rw [hform (K + 1)]; exact hB
      exact ih ufm uf1 hwfm (by rw [hnm]; exact hn)
        (fun d hd => hin d (List.mem_cons_of_mem c hd)) hKm.1 hKm.2 hok

/-- The solve loop fails if and only if some constraint, at the moment it is
processed in emission order, has two distinct ground roots. -/
theorem solveAll_error_iff {K : Nat} :
    ∀ (cs : List (Nat × Nat)) (uf : UnionFind), WF uf →
      (∀ c ∈ cs, c.1 < uf.n ∧ c.2 < uf.n) →
      ((∃ e, solveAll K uf cs = .error e) ↔
        ∃ l x y rest, cs = l ++ (x, y) :: rest ∧
          ∃ uf1, solveAll K uf l = .ok uf1 ∧
            ¬ uf1.rootOf x < K ∧ ¬ uf1.rootOf y < K ∧ uf1.rootOf x ≠ uf1.rootOf y) := by
  intro cs
  induction cs with
  | nil =>
    intro uf h hin
    constructor
    · rintro ⟨e, he⟩
      simp [solveAll] at he
    · rintro ⟨l, x, y, rest, hsplit, _⟩
      cases l with
      | nil => simp at hsplit
      | cons a l2 => simp at hsplit
  | cons c rest ih =>
    intro uf h hin
    obtain ⟨hc1, hc2⟩ := hin c (List.mem_cons_self c rest)
    constructor
    · rintro ⟨e, he⟩
      simp only [solveAll] at he
      cases hstep : solveStep K uf c with
      | error e2 =>
        obtain ⟨hnx, hny, hne, _⟩ :=
          solveStep_error_spec (x := c.1) (y := c.2) h (by rw [← hstep])
        exact ⟨[], c.1, c.2, rest, by simp, uf, rfl, hnx, hny, hne⟩
      | ok ufm =>
        rw [hstep] at he
        obtain ⟨hwfm, hnm, _⟩ := solveStep_ok_spec h hc1 hc2 (by rw [← hstep])
        have hinm : ∀ d ∈ rest, d.1 < ufm.n ∧ d.2 < ufm.n := fun d hd => by
          rw [hnm]
          exact hin d (List.mem_cons_of_mem c hd)
        obtain ⟨l, x, y, rest2, hsplit, uf1, hpre, hcond⟩ :=
          (ih ufm hwfm hinm).mp ⟨e, he⟩
        refine ⟨c :: l, x, y, rest2, by rw [hsplit]; rfl, uf1, ?_, hcond⟩
        simp only [solveAll]
        rw [hstep]
        exact hpre
    · rintro ⟨l, x, y, rest2, hsplit, uf1, hpre, hnx, hny, hne⟩
      cases l with
      | nil =>
        simp only [List.nil_append, List.cons.injEq] at hsplit
        obtain ⟨hc, hrest⟩ := hsplit
        have huf1 : uf = uf1 := by
          have : Except.ok (ε := String) uf = .ok uf1 := hpre
          simpa using this
        subst huf1
        have herr := solveStep_error_of (x := x) (y := y) h hnx hny hne
        refine ⟨"Type Error: cannot unify " ++ (if uf.rootOf x = K then "INT" else "BOOL") ++
          " and " ++ (if uf.rootOf y = K then "INT" else "BOOL"), ?_⟩
        simp only [solveAll]
        rw [hc, herr]
      | cons c2 l2 =>
        simp only [List.cons_append, List.cons.injEq] at hsplit
        obtain ⟨hc, hrest⟩ := hsplit
        simp only [solveAll] at hpre
        cases hstep : solveStep K uf c2 with
        | error e2 =>
          rw [hstep] at hpre
          exact absurd hpre (by simp)
        | ok ufm =>
          rw [hstep] at hpre
          have hc2in : c2.1 < uf.n ∧ c2.2 < uf.n := by rw [← hc]; exact ⟨hc1, hc2⟩
          obtain ⟨hwfm, hnm, _⟩ := solveStep_ok_spec h hc2in.1 hc2in.2 (by rw [← hstep])
          have hinm : ∀ d ∈ rest, d.1 < ufm.n ∧ d.2 < ufm.n := fun d hd => by
            rw [hnm]
            exact hin d (List.mem_cons_of_mem c hd)
          obtain ⟨e, he⟩ := (ih ufm hwfm hinm).mpr
            ⟨l2, x, y, rest2, hrest, uf1, hpre, hnx, hny, hne⟩
          refine ⟨e, ?_⟩
          simp only [solveAll]
          rw [hc, hstep]
          exact he

/-- Any error the solve loop produces names two distinct ground types. -/
theorem solveAll_error_msg {K : Nat} :
    ∀ (cs : List (Nat × Nat)) (uf : UnionFind) (e : String), WF uf →
      (∀ c ∈ cs, c.1 < uf.n ∧ c.2 < uf.n) → uf.n = K + 2 →
      solveAll K uf cs = .error e →
      e = "Type Error: cannot unify INT and BOOL" ∨
        e = "Type Error: cannot unify BOOL and INT" := by
  intro cs
  induction cs with
  | nil =>
    intro uf e _ _ _ he
    simp [solveAll] at he
  | cons c rest ih =>
    intro uf e h hin hn he
    simp only [solveAll] at he
    obtain ⟨hc1, hc2⟩ := hin c (List.mem_cons_self c rest)
    cases hstep : solveStep K uf c with
    | error e2 =>
      rw [hstep] at he
      cases he
      obtain ⟨hnx, hny, hne, hmsg⟩ :=
        solveStep_error_spec (x := c.1) (y := c.2) h (by rw [← hstep])
      have hx2 : uf.rootOf c.1 < K + 2 := by
        rw [← hn]
        exact rootOf_lt h hc1
      have hy2 : uf.rootOf c.2 < K + 2 := by
        rw [← hn]
        exact rootOf_lt h hc2
      rcases show uf.rootOf c.1 = K ∨ uf.rootOf c.1 = K + 1 by omega with hxg | hxg
      · have hyg : uf.rootOf c.2 = K + 1 := by omega
        left
        rw [hmsg, if_pos hxg, if_neg (by omega)]
        decide
      · have hyg : uf.rootOf c.2 = K := by omega
        right
        rw [hmsg, if_neg (by omega), if_pos hyg]
        decide
    | ok ufm =>
      rw [hstep] at he
      obtain ⟨hwfm, hnm, _⟩ := solveStep_ok_spec h hc1 hc2 (by rw [← hstep])
      exact ih ufm e hwfm
        (fun d hd => by rw [hnm]; exact hin d (List.mem_cons_of_mem c hd))
        (by rw [hnm]; exact hn) he

/-! ## Claim C7 -/

/-- Claim C7: for every well-formed union-find state and all ids `x`, `y` in
range, after `join(x, y)` the representative of the merged class is the root
`y` had before the call (the second argument's root survives), and
`find(x) == find(y)` holds afterwards. -/
theorem join_second_root_survives (uf : UnionFind) (x y : Nat)
    (h : WF uf) (hx : x < uf.n) (hy : y < uf.n) :
    (uf.join x y).rootOf x = uf.rootOf y ∧
    (uf.join x y).rootOf y = uf.rootOf y ∧
    (∀ z, (uf.rootOf z = uf.rootOf x ∨ uf.rootOf z = uf.rootOf y) →
      (uf.join x y).rootOf z = uf.rootOf y) ∧
    ((uf.join x y).find x).1 = ((uf.join x y).find y).1 := by
  obtain ⟨hwfj, hnj, hform⟩ := join_spec h hx hy
  have h1 : (uf.join x y).rootOf x = uf.rootOf y := by
    rw [hform x, if_pos rfl]
  have h2 : (uf.join x y).rootOf y = uf.rootOf y := by
    rw [hform y]
    by_cases hc : uf.rootOf y = uf.rootOf x
    · rw [if_pos hc]
    · rw [if_neg hc]
  refine ⟨h1, h2, ?_, ?_⟩
  · intro z hz
    rw [hform z]
    rcases hz with hz | hz
    · rw [if_pos hz]
    · by_cases hc : uf.rootOf z = uf.rootOf x
      · rw [if_pos hc]
      · rw [if_neg hc]
        exact hz
  · show (uf.join x y).rootOf x = (uf.join x y).rootOf y
    rw [h1, h2]

theorem join_second_root_survives_witness :
    ((UnionFind.init 2).join 0 1).rootOf 0 = (UnionFind.init 2).rootOf 1 ∧
    ((UnionFind.init 2).join 0 1).rootOf 1 = (UnionFind.init 2).rootOf 1 ∧
    (((UnionFind.init 2).join 0 1).find 0).1 = (((UnionFind.init 2).join 0 1).find 1).1 := by
  have h := join_second_root_survives (UnionFind.init 2) 0 1 (WF_init 2)
    (by decide) (by decide)
  exact ⟨h.1, h.2.1, h.2.2.2⟩

/-! ## Claim C3 -/

/-- Claim C3: during constraint solving, whenever a constraint's two roots
are one type-variable id (`< K`) and one ground sentinel (`INT = K` or
`BOOL = K + 1`), the ground sentinel becomes the surviving root of the
merged class, regardless of which side of the pair it appeared on; as a
consequence `find(INT) == INT` and `find(BOOL) == BOOL` after processing
every constraint of every run. -/
theorem ground_type_always_wins_as_root :
    (∀ (K : Nat) (uf : UnionFind) (x y : Nat), WF uf → uf.n = K + 2 →
      x < K + 2 → y < K + 2 →
      ((uf.rootOf x < K ∧ (uf.rootOf y = K ∨ uf.rootOf y = K + 1) →
        ∃ uf2, solveStep K uf (x, y) = .ok uf2 ∧
          ∀ z, (uf.rootOf z = uf.rootOf x ∨ uf.rootOf z = uf.rootOf y) →
            uf2.rootOf z = uf.rootOf y) ∧
       ((uf.rootOf x = K ∨ uf.rootOf x = K + 1) ∧ uf.rootOf y < K →
        ∃ uf2, solveStep K uf (x, y) = .ok uf2 ∧
          ∀ z, (uf.rootOf z = uf.rootOf x ∨ uf.rootOf z = uf.rootOf y) →
            uf2.rootOf z = uf.rootOf x))) ∧
    (∀ (K : Nat) (cs : List (Nat × Nat)) (uf1 : UnionFind),
      (∀ c ∈ cs, c.1 < K + 2 ∧ c.2 < K + 2) →
      solveAll K (UnionFind.init (K + 2)) cs = .ok uf1 →
      (uf1.find K).1 = K ∧ (uf1.find (K + 1)).1 = K + 1) := by
  constructor
  · intro K uf x y h hn hx hy
    have hxn : x < uf.n := by rw [hn]; exact hx
    have hyn : y < uf.n := by rw [hn]; exact hy
    constructor
    · rintro ⟨hvx, hgy⟩
      cases hstep : solveStep K uf (x, y) with
      | error e =>
        obtain ⟨hnx, _, _, _⟩ := solveStep_error_spec h hstep
        exact absurd hvx hnx
      | ok uf2 =>
        obtain ⟨_, _, hcase⟩ := solveStep_ok_spec h hxn hyn hstep
        rcases hcase with ⟨_, hform⟩ | ⟨hnx, _, _⟩ | ⟨heq, _⟩
        · refine ⟨uf2, rfl, ?_⟩
          intro z hz
          rw [hform z]
          rcases hz with hz | hz
          · rw [if_pos hz]
          · by_cases hc : uf.rootOf z = uf.rootOf x
            · rw [if_pos hc]
            · rw [if_neg hc]
              exact hz
        · exact absurd hvx hnx
        · omega
    · rintro ⟨hgx, hvy⟩
      cases hstep : solveStep K uf (x, y) with
      | error e =>
        obtain ⟨_, hny, _, _⟩ := solveStep_error_spec h hstep
        exact absurd hvy hny
      | ok uf2 =>
        obtain ⟨_, _, hcase⟩ := solveStep_ok_spec h hxn hyn hstep
        rcases hcase with ⟨hvx, _⟩ | ⟨_, _, hform⟩ | ⟨heq, _⟩
        · omega
        · refine ⟨uf2, rfl, ?_⟩
          intro z hz
          rw [hform z]
          rcases hz with hz | hz
          · by_cases hc : uf.rootOf z = uf.rootOf y
            · rw [if_pos hc]
            · rw [if_neg hc]
              exact hz
          · rw [if_pos hz]
        · omega
  · intro K cs uf1 hin hok
    exact solveAll_ground cs (UnionFind.init (K + 2)) uf1 (WF_init (K + 2)) rfl hin
      (rootOf_init (K + 2) K) (rootOf_init (K + 2) (K + 1)) hok

theorem ground_type_always_wins_as_root_witness :
    (∃ uf2, solveStep 1 (UnionFind.init 3) (0, 1) = .ok uf2 ∧
      uf2.rootOf 0 = (UnionFind.init 3).rootOf 1) ∧
    (∃ uf1, solveAll 1 (UnionFind.init 3) [(0, 1)] = .ok uf1 ∧
      (uf1.find 1).1 = 1 ∧ (uf1.find 2).1 = 2) := by
  have h := ground_type_always_wins_as_root
  have hside := (h.1 1 (UnionFind.init 3) 0 1 (WF_init 3) rfl (by omega) (by omega)).1
  obtain ⟨uf2, hstep, hform⟩ := hside ⟨by rw [rootOf_init]; omega, Or.inl (rootOf_init 3 1)⟩
  have hall : solveAll 1 (UnionFind.init 3) [(0, 1)] = .ok uf2 := by
    simp only [solveAll]
    rw [hstep]
  refine ⟨⟨uf2, hstep, hform 0 (Or.inl rfl)⟩, uf2, hall, ?_⟩
  exact h.2 1 [(0, 1)] uf2 (by simp) hall

/-! ## Claim C4 -/

/-- Claim C4: constraint solving fails if and only if some constraint, at
the moment it is processed in emission order, has two ground roots that
differ (one `INT = K`, one `BOOL = K + 1`); the error names both conflicting
ground types; two equal ground roots are a no-op; and the constraints
`v = INT` then `v = BOOL` (or in the other order) for a type variable `v`
always produce this error. -/
theorem unify_error_iff_distinct_ground_roots :
    (∀ (K : Nat) (cs : List (Nat × Nat)), (∀ c ∈ cs, c.1 < K + 2 ∧ c.2 < K + 2) →
      ((∃ e, solveAll K (UnionFind.init (K + 2)) cs = .error e) ↔
        ∃ l x y rest, cs = l ++ (x, y) :: rest ∧
          ∃ uf1, solveAll K (UnionFind.init (K + 2)) l = .ok uf1 ∧
            ((uf1.rootOf x = K ∧ uf1.rootOf y = K + 1) ∨
              (uf1.rootOf x = K + 1 ∧ uf1.rootOf y = K)))) ∧
    (∀ (K : Nat) (cs : List (Nat × Nat)) (e : String),
      (∀ c ∈ cs, c.1 < K + 2 ∧ c.2 < K + 2) →
      solveAll K (UnionFind.init (K + 2)) cs = .error e →
      e = "Type Error: cannot unify INT and BOOL" ∨
        e = "Type Error: cannot unify BOOL and INT") ∧
    (∀ (K : Nat) (uf : UnionFind) (x y : Nat), WF uf → uf.n = K + 2 →
      x < K + 2 → y < K + 2 → ¬ uf.rootOf x < K → uf.rootOf x = uf.rootOf y →
      ∃ uf2, solveStep K uf (x, y) = .ok uf2 ∧ ∀ z, uf2.rootOf z = uf.rootOf z) ∧
    (∀ (K v : Nat), v < K →
      solveAll K (UnionFind.init (K + 2)) [(v, K), (v, K + 1)] =
        .error "Type Error: cannot unify INT and BOOL" ∧
      solveAll K (UnionFind.init (K + 2)) [(v, K + 1), (v, K)] =
        .error "Type Error: cannot unify BOOL and INT") := by
  refine ⟨?_, ?_, ?_, ?_⟩
  · intro K cs hin
    rw [solveAll_error_iff cs (UnionFind.init (K + 2)) (WF_init (K + 2)) hin]
    constructor
    · rintro ⟨l, x, y, rest, hsplit, uf1, hpre, hnx, hny, hne⟩
      refine ⟨l, x, y, rest, hsplit, uf1, hpre, ?_⟩
      have hxmem : (x, y) ∈ cs := by
        rw [hsplit]
        exact List.mem_append_right l (List.mem_cons_self (x, y) rest)
      obtain ⟨hxr, hyr⟩ := hin (x, y) hxmem
      obtain ⟨hwf1, hn1⟩ := solveAll_wf l (UnionFind.init (K + 2)) uf1 (WF_init (K + 2))
        (fun c hc => hin c (by rw [hsplit]; exact List.mem_append_left _ hc)) hpre
      have hx2 : uf1.rootOf x < K + 2 := by
        have := rootOf_lt hwf1 (x := x) (by rw [hn1]; exact hxr)
        rwa [hn1] at this
      have hy2 : uf1.rootOf y < K + 2 := by
        have := rootOf_lt hwf1 (x := y) (by rw [hn1]; exact hyr)
        rwa [hn1] at this
      omega
    · rintro ⟨l, x, y, rest, hsplit, uf1, hpre, hcomb⟩
      exact ⟨l, x, y, rest, hsplit, uf1, hpre, by omega, by omega, by omega⟩
  · intro K cs e hin he
    exact solveAll_error_msg cs (UnionFind.init (K + 2)) e (WF_init (K + 2)) hin rfl he
  · intro K uf x y h hn hx hy hgx heq
    have hxn : x < uf.n := by rw [hn]; exact hx
    have hyn : y < uf.n := by rw [hn]; exact hy
    cases hstep : solveStep K uf (x, y) with
    | error e =>
      obtain ⟨_, _, hne, _⟩ := solveStep_error_spec h hstep
      exact absurd heq hne
    | ok uf2 =>
      obtain ⟨_, _, hcase⟩ := solveStep_ok_spec h hxn hyn hstep
      rcases hcase with ⟨hvx, _⟩ | ⟨_, hvy, _⟩ | ⟨_, hform⟩
      · exact absurd hvx hgx
      · rw [← heq] at hvy
        exact absurd hvy hgx
      · exact ⟨uf2, rfl, hform⟩
  · intro K v hv
    have hwf0 := WF_init (K + 2)
    constructor
    · -- first (v, INT): variable joins INT
      cases hstep : solveStep K (UnionFind.init (K + 2)) (v, K) with
      | error e =>
        obtain ⟨hnx, _, _, _⟩ := solveStep_error_spec hwf0 hstep
        rw [rootOf_init] at hnx
        exact absurd hv hnx
      | ok uf2 =>
        obtain ⟨hwf2, hn2, hcase⟩ := solveStep_ok_spec hwf0 (x := v) (y := K)
          (by show v < K + 2; omega) (by show K < K + 2; omega) hstep
        have hroots : uf2.rootOf v = K ∧ uf2.rootOf (K + 1) = K + 1 := by
          rcases hcase with ⟨_, hform⟩ | ⟨hnv, _, _⟩ | ⟨hvK, _⟩
          · constructor
            · rw [hform v]
              simp [rootOf_init]
            · rw [hform (K + 1)]
              simp only [rootOf_init]
              rw [if_neg (by omega)]
          · rw [rootOf_init] at hnv
            exact absurd hv hnv
          · rw [rootOf_init, rootOf_init] at hvK
            omega
        have herr := solveStep_error_of (K := K) (x := v) (y := K + 1) hwf2
          (by rw [hroots.1]; omega) (by rw [hroots.2]; omega)
          (by rw [hroots.1, hroots.2]; omega)
        rw [hroots.1, hroots.2] at herr
        rw [if_pos rfl, if_neg (by omega)] at herr
        show (match solveStep K (UnionFind.init (K + 2)) (v, K) with
          | .error e => Except.error e
          | .ok uf2 => solveAll K uf2 [(v, K + 1)]) = _
        rw [hstep]
        show (match solveStep K uf2 (v, K + 1) with
          | .error e => Except.error e
          | .ok uf3 => solveAll K uf3 []) = _
        rw [herr]
        rfl
    · -- first (v, BOOL): variable joins BOOL
      cases hstep : solveStep K (UnionFind.init (K + 2)) (v, K + 1) with
      | error e =>
        obtain ⟨hnx, _, _, _⟩ := solveStep_error_spec hwf0 hstep
        rw [rootOf_init] at hnx
        exact absurd hv hnx
      | ok uf2 =>
        obtain ⟨hwf2, hn2, hcase⟩ := solveStep_ok_spec hwf0 (x := v) (y := K + 1)
          (by show v < K + 2; omega) (by show K + 1 < K + 2; omega) hstep
        have hroots : uf2.rootOf v = K + 1 ∧ uf2.rootOf K = K := by
          rcases hcase with ⟨_, hform⟩ | ⟨hnv, _, _⟩ | ⟨hvK, _⟩
          · constructor
            · rw [hform v]
              simp [rootOf_init]
            · rw [hform K]
              simp only [rootOf_init]
              rw [if_neg (by omega)]
          · rw [rootOf_init] at hnv
            exact absurd hv hnv
          · rw [rootOf_init, rootOf_init] at hvK
            omega
        have herr := solveStep_error_of (K := K) (x := v) (y := K) hwf2
          (by rw [hroots.1]; omega) (by rw [hroots.2]; omega)
          (by rw [hroots.1, hroots.2]; omega)
        rw [hroots.1, hroots.2] at herr
        rw [if_neg (by omega), if_pos rfl] at herr
        show (match solveStep K (UnionFind.init (K + 2)) (v, K + 1) with
          | .error e => Except.error e
          | .ok uf2 => solveAll K uf2 [(v, K)]) = _
        rw [hstep]
        show (match solveStep K uf2 (v, K) with
          | .error e => Except.error e
          | .ok uf3 => solveAll K uf3 []) = _
        rw [herr]
        rfl

theorem unify_error_iff_distinct_ground_roots_witness :
    solveAll 1 (UnionFind.init 3) [(0, 1), (0, 2)] =
      .error "Type Error: cannot unify INT and BOOL" ∧
    solveAll 1 (UnionFind.init 3) [(0, 2), (0, 1)] =
      .error "Type Error: cannot unify BOOL and INT" :=
  unify_error_iff_distinct_ground_roots.2.2.2 1 0 (by omega)

/-! ## Numbering theory -/

theorem numberShape_cons_none (rest : List (Option String)) (c : Nat) (m : VMap) :
    numberShape (none :: rest) c m =
      ((c :: (numberShape rest (c + 1) m).1), (numberShape rest (c + 1) m).2) := rfl

theorem numberShape_cons_some_old (rest : List (Option String)) (c : Nat) (m : VMap)
    (s : String) (k0 : Nat) (h : m s = some k0) :
    numberShape (some s :: rest) c m =
      ((k0 :: (numberShape rest c m).1), (numberShape rest c m).2) := by
  simp only [numberShape, h]

theorem numberShape_cons_some_new (rest : List (Option String)) (c : Nat) (m : VMap)
    (s : String) (h : m s = none) :
    numberShape (some s :: rest) c m =
      ((c :: (numberShape rest (c + 1) (vmInsert m s c)).1),
        (numberShape rest (c + 1) (vmInsert m s c)).2) := by
  simp only [numberShape, h]

theorem numberShape_none_fst (rest : List (Option String)) (c : Nat) (m : VMap) :
    (numberShape (none :: rest) c m).1 = c :: (numberShape rest (c + 1) m).1 := rfl

theorem numberShape_none_ctr (rest : List (Option String)) (c : Nat) (m : VMap) :
    (numberShape (none :: rest) c m).2.1 = (numberShape rest (c + 1) m).2.1 := rfl

theorem numberShape_none_map (rest : List (Option String)) (c : Nat) (m : VMap) :
    (numberShape (none :: rest) c m).2.2 = (numberShape rest (c + 1) m).2.2 := rfl

theorem numberShape_some_old_fst (rest : List (Option String)) (c : Nat) (m : VMap)
    (s : String) (k0 : Nat) (h : m s = some k0) :
    (numberShape (some s :: rest) c m).1 = k0 :: (numberShape rest c m).1 := by
  rw [numberShape_cons_some_old rest c m s k0 h]

theorem numberShape_some_old_ctr (rest : List (Option String)) (c : Nat) (m : VMap)
    (s : String) (k0 : Nat) (h : m s = some k0) :
    (numberShape (some s :: rest) c m).2.1 = (numberShape rest c m).2.1 := by
  rw [numberShape_cons_some_old rest c m s k0 h]

theorem numberShape_some_old_map (rest : List (Option String)) (c : Nat) (m : VMap)
    (s : String) (k0 : Nat) (h : m s = some k0) :
    (numberShape (some s :: rest) c m).2.2 = (numberShape rest c m).2.2 := by
  rw [numberShape_cons_some_old rest c m s k0 h]

theorem numberShape_some_new_fst (rest : List (Option String)) (c : Nat) (m : VMap)
    (s : String) (h : m s = none) :
    (numberShape (some s :: rest) c m).1 =
      c :: (numberShape rest (c + 1) (vmInsert m s c)).1 := by
  rw [numberShape_cons_some_new rest c m s h]

theorem numberShape_some_new_ctr (rest : List (Option String)) (c : Nat) (m : VMap)
    (s : String) (h : m s = none) :
    (numberShape (some s :: rest) c m).2.1 =
      (numberShape rest (c + 1) (vmInsert m s c)).2.1 := by
  rw [numberShape_cons_some_new rest c m s h]

theorem numberShape_some_new_map (rest : List (Option String)) (c : Nat) (m : VMap)
    (s : String) (h : m s = none) :
    (numberShape (some s :: rest) c m).2.2 =
      (numberShape rest (c + 1) (vmInsert m s c)).2.2 := by
  rw [numberShape_cons_some_new rest c m s h]

theorem vmInsert_self (m : VMap) (s : String) (v : Nat) : vmInsert m s v s = some v := by
  simp [vmInsert]

theorem vmInsert_other (m : VMap) (s : String) (v : Nat) (t : String) (h : t ≠ s) :
    vmInsert m s v t = m t := by
  simp [vmInsert, h]

/-- The freshly inserted binding keeps the map invariants. -/
theorem vmInsert_invariants (m : VMap) (s : String) (c : Nat)
    (hP1 : ∀ t k, m t = some k → k < c)
    (hINJ : ∀ t u k, m t = some k → m u = some k → t = u) :
    (∀ t k, vmInsert m s c t = some k → k < c + 1) ∧
    (∀ t u k, vmInsert m s c t = some k → vmInsert m s c u = some k → t = u) := by
  constructor
  · intro t k h
    by_cases hts : t = s
    · rw [hts, vmInsert_self] at h
      cases h
      omega
    · rw [vmInsert_other m s c t hts] at h
      exact Nat.lt_succ_of_lt (hP1 t k h)
  · intro t u k ht hu
    by_cases hts : t = s
    · by_cases hus : u = s
      · rw [hts, hus]
      · rw [hts, vmInsert_self] at ht
        cases ht
        rw [vmInsert_other m s c u hus] at hu
        exact absurd (hP1 u c hu) (by omega)
    · rw [vmInsert_other m s c t hts] at ht
      by_cases hus : u = s
      · rw [hus, vmInsert_self] at hu
        cases hu
        exact absurd (hP1 t c ht) (by omega)
      · rw [vmInsert_other m s c u hus] at hu
        exact hINJ t u k ht hu

/-- Facts about the final counter and map of a numbering run: the counter
grows, the map only extends, its values stay below the counter and distinct
names keep distinct ids, and every new binding gets a fresh id. -/
theorem numberShape_map :
    ∀ (items : List (Option String)) (c : Nat) (m : VMap),
      (∀ s k, m s = some k → k < c) →
      (∀ s t k, m s = some k → m t = some k → s = t) →
      c ≤ (numberShape items c m).2.1 ∧
      (∀ s k, m s = some k → (numberShape items c m).2.2 s = some k) ∧
      (∀ s k, (numberShape items c m).2.2 s = some k → k < (numberShape items c m).2.1) ∧
      (∀ s t k, (numberShape items c m).2.2 s = some k →
        (numberShape items c m).2.2 t = some k → s = t) ∧
      (∀ s k, (numberShape items c m).2.2 s = some k →
        m s = some k ∨ (c ≤ k ∧ k < (numberShape items c m).2.1)) := by
  intro items
  induction items with
  | nil =>
    intro c m hP1 hINJ
    exact ⟨Nat.le_refl c, fun s k h => h, hP1, hINJ, fun s k h => Or.inl h⟩
  | cons a rest ih =>
    intro c m hP1 hINJ
    cases a with
    | none =>
      have hP1a : ∀ s k, m s = some k → k < c + 1 :=
        fun s k h => Nat.lt_succ_of_lt (hP1 s k h)
      obtain ⟨q1, q2, q3, q4, q5⟩ := ih (c + 1) m hP1a hINJ
      rw [numberShape_none_ctr, numberShape_none_map]
      refine ⟨by omega, q2, q3, q4, ?_⟩
      intro s k h
      rcases q5 s k h with h1 | h2
      · exact Or.inl h1
      · exact Or.inr ⟨by omega, h2.2⟩
    | some s =>
      cases hms : m s with
      | some k0 =>
        obtain ⟨q1, q2, q3, q4, q5⟩ := ih c m hP1 hINJ
        rw [numberShape_some_old_ctr rest c m s k0 hms,
          numberShape_some_old_map rest c m s k0 hms]
        exact ⟨q1, q2, q3, q4, q5⟩
      | none =>
        obtain ⟨hP1a, hINJa⟩ := vmInsert_invariants m s c hP1 hINJ
        obtain ⟨q1, q2, q3, q4, q5⟩ := ih (c + 1) (vmInsert m s c) hP1a hINJa
        rw [numberShape_some_new_ctr rest c m s hms,
          numberShape_some_new_map rest c m s hms]
        refine ⟨by omega, ?_, q3, q4, ?_⟩
        · intro t k h
          apply q2
          by_cases hts : t = s
          · rw [hts] at h
            rw [hms] at h
            cases h
          · rw [vmInsert_other m s c t hts]
            exact h
        · intro t k h
          rcases q5 t k h with h1 | h2
          · by_cases hts : t = s
            · rw [hts, vmInsert_self] at h1
              cases h1
              exact Or.inr ⟨Nat.le_refl c, by omega⟩
            · rw [vmInsert_other m s c t hts] at h1
              exact Or.inl h1
          · exact Or.inr ⟨by omega, h2.2⟩

theorem numberShape_append :
    ∀ (xs ys : List (Option String)) (c : Nat) (m : VMap),
      numberShape (xs ++ ys) c m =
        ((numberShape xs c m).1 ++
            (numberShape ys (numberShape xs c m).2.1 (numberShape xs c m).2.2).1,
          (numberShape ys (numberShape xs c m).2.1 (numberShape xs c m).2.2).2) := by
  intro xs
  induction xs with
  | nil => intro ys c m; rfl
  | cons a rest ih =>
    intro ys c m
    cases a with
    | none =>
      rw [List.cons_append, numberShape_cons_none, numberShape_cons_none, ih]
      rfl
    | some s =>
      cases hms : m s with
      | some k0 =>
        rw [List.cons_append, numberShape_cons_some_old (rest ++ ys) c m s k0 hms,
          numberShape_cons_some_old rest c m s k0 hms, ih]
        rfl
      | none =>
        rw [List.cons_append, numberShape_cons_some_new (rest ++ ys) c m s hms,
          numberShape_cons_some_new rest c m s hms, ih]
        rfl

/-- Positional facts about the assigned ids: a `Var` position carries the id
its name maps to; a non-`Var` position carries a fresh id owned by no name;
every id is below the final counter and is either fresh or looked up. -/
theorem numberShape_pos :
    ∀ (items : List (Option String)) (c : Nat) (m : VMap),
      (∀ s k, m s = some k → k < c) →
      (∀ s t k, m s = some k → m t = some k → s = t) →
      (∀ i s, i < items.length → items.getD i none = some s →
        (numberShape items c m).2.2 s = some ((numberShape items c m).1.getD i 0)) ∧
      (∀ i, i < items.length → items.getD i none = none →
        c ≤ (numberShape items c m).1.getD i 0 ∧
        (∀ s, (numberShape items c m).2.2 s ≠ some ((numberShape items c m).1.getD i 0))) ∧
      (∀ i, i < items.length →
        (numberShape items c m).1.getD i 0 < (numberShape items c m).2.1 ∧
        (c ≤ (numberShape items c m).1.getD i 0 ∨
          ∃ s, items.getD i none = some s ∧
            m s = some ((numberShape items c m).1.getD i 0))) := by
  intro items
  induction items with
  | nil =>
    intro c m hP1 hINJ
    refine ⟨?_, ?_, ?_⟩
    · intro i s hi _
      simp only [List.length_nil] at hi
      omega
    · intro i hi _
      simp only [List.length_nil] at hi
      exact absurd hi (by omega)
    · intro i hi
      simp only [List.length_nil] at hi
      exact absurd hi (by omega)
  | cons a rest ih =>
    intro c m hP1 hINJ
    cases a with
    | none =>
      have hP1a : ∀ s k, m s = some k → k < c + 1 :=
        fun s k h => Nat.lt_succ_of_lt (hP1 s k h)
      obtain ⟨r6, r7, r8⟩ := ih (c + 1) m hP1a hINJ
      obtain ⟨q1, q2, q3, q4, q5⟩ := numberShape_map rest (c + 1) m hP1a hINJ
      rw [numberShape_none_fst, numberShape_none_ctr, numberShape_none_map]
      refine ⟨?_, ?_, ?_⟩
      · intro i s hi hitem
        cases i with
        | zero => simp at hitem
        | succ i =>
          simp only [List.getD_cons_succ] at hitem ⊢
          simp only [List.length_cons] at hi
          exact r6 i s (by omega) hitem
      · intro i hi hitem
        cases i with
        | zero =>
          simp only [List.getD_cons_zero]
          refine ⟨Nat.le_refl c, ?_⟩
          intro s hcon
          rcases q5 s c hcon with hold | hnew
          · exact absurd (hP1 s c hold) (by omega)
          · omega
        | succ i =>
          simp only [List.getD_cons_succ] at hitem ⊢
          simp only [List.length_cons] at hi
          obtain ⟨hge, hne⟩ := r7 i (by omega) hitem
          exact ⟨by omega, hne⟩
      · intro i hi
        cases i with
        | zero =>
          simp only [List.getD_cons_zero]
          exact ⟨by omega, Or.inl (Nat.le_refl c)⟩
        | succ i =>
          simp only [List.getD_cons_succ]
          simp only [List.length_cons] at hi
          obtain ⟨hlt, hcase⟩ := r8 i (by omega)
          refine ⟨hlt, ?_⟩
          rcases hcase with hge | hsome
          · exact Or.inl (by omega)
          · exact Or.inr hsome
    | some s =>
      cases hms : m s with
      | some k0 =>
        obtain ⟨r6, r7, r8⟩ := ih c m hP1 hINJ
        obtain ⟨q1, q2, q3, q4, q5⟩ := numberShape_map rest c m hP1 hINJ
        rw [numberShape_some_old_fst rest c m s k0 hms,
          numberShape_some_old_ctr rest c m s k0 hms,
          numberShape_some_old_map rest c m s k0 hms]
        refine ⟨?_, ?_, ?_⟩
        · intro i t hi hitem
          cases i with
          | zero =>
            simp only [List.getD_cons_zero] at hitem ⊢
            cases hitem
            exact q2 s k0 hms
          | succ i =>
            simp only [List.getD_cons_succ] at hitem ⊢
            simp only [List.length_cons] at hi
            exact r6 i t (by omega) hitem
        · intro i hi hitem
          cases i with
          | zero => simp at hitem
          | succ i =>
            simp only [List.getD_cons_succ] at hitem ⊢
            simp only [List.length_cons] at hi
            exact r7 i (by omega) hitem
        · intro i hi
          cases i with
          | zero =>
            simp only [List.getD_cons_zero]
            exact ⟨by have := hP1 s k0 hms; omega, Or.inr ⟨s, rfl, hms⟩⟩
          | succ i =>
            simp only [List.getD_cons_succ]
            simp only [List.length_cons] at hi
            exact r8 i (by omega)
      | none =>
        obtain ⟨hP1a, hINJa⟩ := vmInsert_invariants m s c hP1 hINJ
        obtain ⟨r6, r7, r8⟩ := ih (c + 1) (vmInsert m s c) hP1a hINJa
        obtain ⟨q1, q2, q3, q4, q5⟩ := numberShape_map rest (c + 1) (vmInsert m s c) hP1a hINJa
        rw [numberShape_some_new_fst rest c m s hms,
          numberShape_some_new_ctr rest c m s hms,
          numberShape_some_new_map rest c m s hms]
        refine ⟨?_, ?_, ?_⟩
        · intro i t hi hitem
          cases i with
          | zero =>
            simp only [List.getD_cons_zero] at hitem ⊢
            cases hitem
            exact q2 s c (vmInsert_self m s c)
          | succ i =>
            simp only [List.getD_cons_succ] at hitem ⊢
            simp only [List.length_cons] at hi
            exact r6 i t (by omega) hitem
        · intro i hi hitem
          cases i with
          | zero => simp at hitem
          | succ i =>
            simp only [List.getD_cons_succ] at hitem ⊢
            simp only [List.length_cons] at hi
            obtain ⟨hge, hne⟩ := r7 i (by omega) hitem
            exact ⟨by omega, hne⟩
        · intro i hi
          cases i with
          | zero =>
            simp only [List.getD_cons_zero]
            exact ⟨by omega, Or.inl (Nat.le_refl c)⟩
          | succ i =>
            simp only [List.getD_cons_succ]
            simp only [List.length_cons] at hi
            obtain ⟨hlt, hcase⟩ := r8 i (by omega)
            refine ⟨hlt, ?_⟩
            rcases hcase with hge | ⟨t, hit, hmt⟩
            · exact Or.inl (by omega)
            · by_cases hts : t = s
              · rw [hts, vmInsert_self] at hmt
                have hval := Option.some.inj hmt
                exact Or.inl (by omega)
              · rw [vmInsert_other m s c t hts] at hmt
                exact Or.inr ⟨t, hit, hmt⟩

/-- Two distinct non-`Var` positions never share an id. -/
theorem numberShape_nodup :
    ∀ (items : List (Option String)) (c : Nat) (m : VMap),
      (∀ s k, m s = some k → k < c) →
      (∀ s t k, m s = some k → m t = some k → s = t) →
      ∀ i j, i < j → j < items.length →
        items.getD i none = none → items.getD j none = none →
        (numberShape items c m).1.getD i 0 ≠ (numberShape items c m).1.getD j 0 := by
  intro items
  induction items with
  | nil =>
    intro c m _ _ i j _ hj
    exact absurd hj (by simp)
  | cons a rest ih =>
    intro c m hP1 hINJ i j hij hj hitemi hitemj
    cases a with
    | none =>
      have hP1a : ∀ s k, m s = some k → k < c + 1 :=
        fun s k h => Nat.lt_succ_of_lt (hP1 s k h)
      rw [numberShape_none_fst]
      cases i with
      | zero =>
        cases j with
        | zero => omega
        | succ j =>
          simp only [List.getD_cons_zero, List.getD_cons_succ]
          simp only [List.getD_cons_succ] at hitemj
          simp only [List.length_cons] at hj
          obtain ⟨_, r7, _⟩ := numberShape_pos rest (c + 1) m hP1a hINJ
          obtain ⟨hge, _⟩ := r7 j (by omega) hitemj
          omega
      | succ i =>
        cases j with
        | zero => omega
        | succ j =>
          simp only [List.getD_cons_succ]
          simp only [List.getD_cons_succ] at hitemi hitemj
          simp only [List.length_cons] at hj
          exact ih (c + 1) m hP1a hINJ i j (by omega) (by omega) hitemi hitemj
    | some s =>
      cases i with
      | zero => simp at hitemi
      | succ i =>
        cases j with
        | zero => omega
        | succ j =>
          simp only [List.getD_cons_succ] at hitemi hitemj
          simp only [List.length_cons] at hj
          cases hms : m s with
          | some k0 =>
            rw [numberShape_some_old_fst rest c m s k0 hms]
            simp only [List.getD_cons_succ]
            exact ih c m hP1 hINJ i j (by omega) (by omega) hitemi hitemj
          | none =>
            obtain ⟨hP1a, hINJa⟩ := vmInsert_invariants m s c hP1 hINJ
            rw [numberShape_some_new_fst rest c m s hms]
            simp only [List.getD_cons_succ]
            exact ih (c + 1) (vmInsert m s c) hP1a hINJa i j (by omega) (by omega)
              hitemi hitemj

/-- Every id in `[c, final counter)` is assigned to some position. -/
theorem numberShape_cover :
    ∀ (items : List (Option String)) (c : Nat) (m : VMap) (k : Nat),
      c ≤ k → k < (numberShape items c m).2.1 → k ∈ (numberShape items c m).1 := by
  intro items
  induction items with
  | nil =>
    intro c m k hck hk
    simp only [numberShape] at hk
    omega
  | cons a rest ih =>
    intro c m k hck hk
    cases a with
    | none =>
      rw [numberShape_none_ctr] at hk
      rw [numberShape_none_fst]
      by_cases hkc : k = c
      · rw [hkc]; exact List.mem_cons_self c _
      · exact List.mem_cons_of_mem c (ih (c + 1) m k (by omega) hk)
    | some s =>
      cases hms : m s with
      | some k0 =>
        rw [numberShape_some_old_ctr rest c m s k0 hms] at hk
        rw [numberShape_some_old_fst rest c m s k0 hms]
        exact List.mem_cons_of_mem k0 (ih c m k hck hk)
      | none =>
        rw [numberShape_some_new_ctr rest c m s hms] at hk
        rw [numberShape_some_new_fst rest c m s hms]
        by_cases hkc : k = c
        · rw [hkc]; exact List.mem_cons_self c _
        · exact List.mem_cons_of_mem c (ih (c + 1) (vmInsert m s c) k (by omega) hk)

theorem filter_ge_ne (c : Nat) (l : List Nat) :
    (l.filter (fun a => c ≤ a)).filter (fun x => x ≠ c) =
      l.filter (fun a => c + 1 ≤ a) := by
  rw [List.filter_filter]
  apply List.filter_congr
  intro a _
  by_cases h2 : a = c
  · rw [h2]
    have h3 : ¬ (c + 1 ≤ c) := by omega
    simp [h3]
  · by_cases h1 : c ≤ a
    · have h3 : c + 1 ≤ a := by omega
      simp [h2, h1, h3]
    · have h3 : ¬ (c + 1 ≤ a) := by omega
      simp [h2, h1, h3]

/-- The fresh ids, deduplicated keeping first occurrences, are exactly
`c, c+1, ...` in increasing order: ids are handed out in pre-order. -/
theorem numberShape_dedup :
    ∀ (items : List (Option String)) (c : Nat) (m : VMap),
      (∀ s k, m s = some k → k < c) →
      (∀ s t k, m s = some k → m t = some k → s = t) →
      dedupF ((numberShape items c m).1.filter (fun a => c ≤ a)) =
        List.range' c ((numberShape items c m).2.1 - c) := by
  intro items
  induction items with
  | nil =>
    intro c m _ _
    simp [numberShape, dedupF]
  | cons a rest ih =>
    intro c m hP1 hINJ
    cases a with
    | none =>
      have hP1a : ∀ s k, m s = some k → k < c + 1 :=
        fun s k h => Nat.lt_succ_of_lt (hP1 s k h)
      obtain ⟨q1, _, _, _, _⟩ := numberShape_map rest (c + 1) m hP1a hINJ
      rw [numberShape_none_fst, numberShape_none_ctr]
      rw [List.filter_cons, if_pos (by simp)]
      rw [dedupF, filter_ge_ne]
      rw [ih (c + 1) m hP1a hINJ]
      have hr : (numberShape rest (c + 1) m).2.1 - c =
          ((numberShape rest (c + 1) m).2.1 - (c + 1)) + 1 := by omega
      rw [hr, List.range'_succ]
    | some s =>
      cases hms : m s with
      | some k0 =>
        rw [numberShape_some_old_fst rest c m s k0 hms,
          numberShape_some_old_ctr rest c m s k0 hms]
        rw [List.filter_cons, if_neg (by simp; have := hP1 s k0 hms; omega)]
        exact ih c m hP1 hINJ
      | none =>
        obtain ⟨hP1a, hINJa⟩ := vmInsert_invariants m s c hP1 hINJ
        obtain ⟨q1, _, _, _, _⟩ := numberShape_map rest (c + 1) (vmInsert m s c) hP1a hINJa
        rw [numberShape_some_new_fst rest c m s hms,
          numberShape_some_new_ctr rest c m s hms]
        rw [List.filter_cons, if_pos (by simp)]
        rw [dedupF, filter_ge_ne]
        rw [ih (c + 1) (vmInsert m s c) hP1a hINJa]
        have hr : (numberShape rest (c + 1) (vmInsert m s c)).2.1 - c =
            ((numberShape rest (c + 1) (vmInsert m s c)).2.1 - (c + 1)) + 1 := by omega
        rw [hr, List.range'_succ]

theorem numberShape_append_fst (xs ys : List (Option String)) (c : Nat) (m : VMap) :
    (numberShape (xs ++ ys) c m).1 =
      (numberShape xs c m).1 ++
        (numberShape ys (numberShape xs c m).2.1 (numberShape xs c m).2.2).1 := by
  rw [numberShape_append]

theorem numberShape_append_ctr (xs ys : List (Option String)) (c : Nat) (m : VMap) :
    (numberShape (xs ++ ys) c m).2.1 =
      (numberShape ys (numberShape xs c m).2.1 (numberShape xs c m).2.2).2.1 := by
  rw [numberShape_append]

theorem numberShape_append_map (xs ys : List (Option String)) (c : Nat) (m : VMap) :
    (numberShape (xs ++ ys) c m).2.2 =
      (numberShape ys (numberShape xs c m).2.1 (numberShape xs c m).2.2).2.2 := by
  rw [numberShape_append]

theorem nums_sub (n : Nat) (x y : NNode) : nums (.Sub n x y) = n :: (nums x ++ nums y) := by
  simp [nums, preorderN, NNode.num]

theorem nums_mul (n : Nat) (x y : NNode) : nums (.Mul n x y) = n :: (nums x ++ nums y) := by
  simp [nums, preorderN, NNode.num]

theorem nums_div (n : Nat) (x y : NNode) : nums (.Div n x y) = n :: (nums x ++ nums y) := by
  simp [nums, preorderN, NNode.num]

theorem nums_lt (n : Nat) (x y : NNode) : nums (.Lt n x y) = n :: (nums x ++ nums y) := by
  simp [nums, preorderN, NNode.num]

theorem nums_if (n : Nat) (x y z : NNode) :
    nums (.If n x y z) = n :: (nums x ++ nums y ++ nums z) := by
  simp [nums, preorderN, NNode.num]

theorem nums_let (n : Nat) (x y z : NNode) :
    nums (.Let n x y z) = n :: (nums x ++ nums y ++ nums z) := by
  simp [nums, preorderN, NNode.num]

theorem namesN_sub (n : Nat) (x y : NNode) :
    namesN (.Sub n x y) = none :: (namesN x ++ namesN y) := by
  simp [namesN, preorderN, NNode.varName]

theorem namesN_mul (n : Nat) (x y : NNode) :
    namesN (.Mul n x y) = none :: (namesN x ++ namesN y) := by
  simp [namesN, preorderN, NNode.varName]

theorem namesN_div (n : Nat) (x y : NNode) :
    namesN (.Div n x y) = none :: (namesN x ++ namesN y) := by
  simp [namesN, preorderN, NNode.varName]

theorem namesN_lt (n : Nat) (x y : NNode) :
    namesN (.Lt n x y) = none :: (namesN x ++ namesN y) := by
  simp [namesN, preorderN, NNode.varName]

theorem namesN_if (n : Nat) (x y z : NNode) :
    namesN (.If n x y z) = none :: (namesN x ++ namesN y ++ namesN z) := by
  simp [namesN, preorderN, NNode.varName]

theorem namesN_let (n : Nat) (x y z : NNode) :
    namesN (.Let n x y z) = none :: (namesN x ++ namesN y ++ namesN z) := by
  simp [namesN, preorderN, NNode.varName]

theorem assignNumbers_sub (a b : Node) (c : Nat) (m : VMap) :
    assignNumbers (.Sub a b) c m =
      (.Sub c (assignNumbers a (c + 1) m).1
        (assignNumbers b (assignNumbers a (c + 1) m).2.1 (assignNumbers a (c + 1) m).2.2).1,
       (assignNumbers b (assignNumbers a (c + 1) m).2.1 (assignNumbers a (c + 1) m).2.2).2) :=
  rfl

theorem assignNumbers_mul (a b : Node) (c : Nat) (m : VMap) :
    assignNumbers (.Mul a b) c m =
      (.Mul c (assignNumbers a (c + 1) m).1
        (assignNumbers b (assignNumbers a (c + 1) m).2.1 (assignNumbers a (c + 1) m).2.2).1,
       (assignNumbers b (assignNumbers a (c + 1) m).2.1 (assignNumbers a (c + 1) m).2.2).2) :=
  rfl

theorem assignNumbers_div (a b : Node) (c : Nat) (m : VMap) :
    assignNumbers (.Div a b) c m =
      (.Div c (assignNumbers a (c + 1) m).1
        (assignNumbers b (assignNumbers a (c + 1) m).2.1 (assignNumbers a (c + 1) m).2.2).1,
       (assignNumbers b (assignNumbers a (c + 1) m).2.1 (assignNumbers a (c + 1) m).2.2).2) :=
  rfl

theorem assignNumbers_lt (a b : Node) (c : Nat) (m : VMap) :
    assignNumbers (.Lt a b) c m =
      (.Lt c (assignNumbers a (c + 1) m).1
        (assignNumbers b (assignNumbers a (c + 1) m).2.1 (assignNumbers a (c + 1) m).2.2).1,
       (assignNumbers b (assignNumbers a (c + 1) m).2.1 (assignNumbers a (c + 1) m).2.2).2) :=
  rfl

theorem assignNumbers_if (a b d : Node) (c : Nat) (m : VMap) :
    assignNumbers (.If a b d) c m =
      (.If c (assignNumbers a (c + 1) m).1
        (assignNumbers b (assignNumbers a (c + 1) m).2.1 (assignNumbers a (c + 1) m).2.2).1
        (assignNumbers d
          (assignNumbers b (assignNumbers a (c + 1) m).2.1
            (assignNumbers a (c + 1) m).2.2).2.1
          (assignNumbers b (assignNumbers a (c + 1) m).2.1
            (assignNumbers a (c + 1) m).2.2).2.2).1,
       (assignNumbers d
          (assignNumbers b (assignNumbers a (c + 1) m).2.1
            (assignNumbers a (c + 1) m).2.2).2.1
          (assignNumbers b (assignNumbers a (c + 1) m).2.1
            (assignNumbers a (c + 1) m).2.2).2.2).2) :=
  rfl

theorem assignNumbers_let (a b d : Node) (c : Nat) (m : VMap) :
    assignNumbers (.Let a b d) c m =
      (.Let c (assignNumbers a (c + 1) m).1
        (assignNumbers b (assignNumbers a (c + 1) m).2.1 (assignNumbers a (c + 1) m).2.2).1
        (assignNumbers d
          (assignNumbers b (assignNumbers a (c + 1) m).2.1
            (assignNumbers a (c + 1) m).2.2).2.1
          (assignNumbers b (assignNumbers a (c + 1) m).2.1
            (assignNumbers a (c + 1) m).2.2).2.2).1,
       (assignNumbers d
          (assignNumbers b (assignNumbers a (c + 1) m).2.1
            (assignNumbers a (c + 1) m).2.2).2.1
          (assignNumbers b (assignNumbers a (c + 1) m).2.1
            (assignNumbers a (c + 1) m).2.2).2.2).2) :=
  rfl

/-- The tree-level numbering pass agrees with its flattening to the pre-order
shape sequence: the pre-order id list, the names, the final counter and the
final map all coincide. -/
theorem assignNumbers_shape :
    ∀ (e : Node) (c : Nat) (m : VMap),
      nums (assignNumbers e c m).1 = (numberShape (shape e) c m).1 ∧
      namesN (assignNumbers e c m).1 = shape e ∧
      (assignNumbers e c m).2.1 = (numberShape (shape e) c m).2.1 ∧
      (assignNumbers e c m).2.2 = (numberShape (shape e) c m).2.2 := by
  intro e
  induction e with
  | Var s =>
    intro c m
    cases hms : m s with
    | some k =>
      simp [assignNumbers, shape, nums, namesN, preorderN, NNode.num, NNode.varName,
        numberShape, hms]
    | none =>
      simp [assignNumbers, shape, nums, namesN, preorderN, NNode.num, NNode.varName,
        numberShape, hms]
  | Int v =>
    intro c m
    simp [assignNumbers, shape, nums, namesN, preorderN, NNode.num, NNode.varName, numberShape]
  | Bool v =>
    intro c m
    simp [assignNumbers, shape, nums, namesN, preorderN, NNode.num, NNode.varName, numberShape]
  | Sub a b iha ihb =>
    intro c m
    obtain ⟨ha1, ha2, ha3, ha4⟩ := iha (c + 1) m
    obtain ⟨hb1, hb2, hb3, hb4⟩ :=
      ihb (assignNumbers a (c + 1) m).2.1 (assignNumbers a (c + 1) m).2.2
    refine ⟨?_, ?_, ?_, ?_⟩
    · simp only [assignNumbers_sub, nums_sub, shape, numberShape_none_fst,
        numberShape_append_fst]
      rw [ha1, hb1, ha3, ha4]
    · simp only [assignNumbers_sub, namesN_sub, shape]
      rw [ha2, hb2]
    · simp only [assignNumbers_sub, shape, numberShape_none_ctr, numberShape_append_ctr]
      rw [hb3, ha3, ha4]
    · simp only [assignNumbers_sub, shape, numberShape_none_map, numberShape_append_map]
      rw [hb4, ha3, ha4]
  | Mul a b iha ihb =>
    intro c m
    obtain ⟨ha1, ha2, ha3, ha4⟩ := iha (c + 1) m
    obtain ⟨hb1, hb2, hb3, hb4⟩ :=
      ihb (assignNumbers a (c + 1) m).2.1 (assignNumbers a (c + 1) m).2.2
    refine ⟨?_, ?_, ?_, ?_⟩
    · simp only [assignNumbers_mul, nums_mul, shape, numberShape_none_fst,
        numberShape_append_fst]
      rw [ha1, hb1, ha3, ha4]
    · simp only [assignNumbers_mul, namesN_mul, shape]
      rw [ha2, hb2]
    · simp only [assignNumbers_mul, shape, numberShape_none_ctr, numberShape_append_ctr]
      rw [hb3, ha3, ha4]
    · simp only [assignNumbers_mul, shape, numberShape_none_map, numberShape_append_map]
      rw [hb4, ha3, ha4]
  | Div a b iha ihb =>
    intro c m
    obtain ⟨ha1, ha2, ha3, ha4⟩ := iha (c + 1) m
    obtain ⟨hb1, hb2, hb3, hb4⟩ :=
      ihb (assignNumbers a (c + 1) m).2.1 (assignNumbers a (c + 1) m).2.2
    refine ⟨?_, ?_, ?_, ?_⟩
    · simp only [assignNumbers_div, nums_div, shape, numberShape_none_fst,
        numberShape_append_fst]
      rw [ha1, hb1, ha3, ha4]
    · simp only [assignNumbers_div, namesN_div, shape]
      rw [ha2, hb2]
    · simp only [assignNumbers_div, shape, numberShape_none_ctr, numberShape_append_ctr]
      rw [hb3, ha3, ha4]
    · simp only [assignNumbers_div, shape, numberShape_none_map, numberShape_append_map]
      rw [hb4, ha3, ha4]
  | Lt a b iha ihb =>
    intro c m
    obtain ⟨ha1, ha2, ha3, ha4⟩ := iha (c + 1) m
    obtain ⟨hb1, hb2, hb3, hb4⟩ :=
      ihb (assignNumbers a (c + 1) m).2.1 (assignNumbers a (c + 1) m).2.2
    refine ⟨?_, ?_, ?_, ?_⟩
    · simp only [assignNumbers_lt, nums_lt, shape, numberShape_none_fst,
        numberShape_append_fst]
      rw [ha1, hb1, ha3, ha4]
    · simp only [assignNumbers_lt, namesN_lt, shape]
      rw [ha2, hb2]
    · simp only [assignNumbers_lt, shape, numberShape_none_ctr, numberShape_append_ctr]
      rw [hb3, ha3, ha4]
    · simp only [assignNumbers_lt, shape, numberShape_none_map, numberShape_append_map]
      rw [hb4, ha3, ha4]
  | If a b d iha ihb ihd =>
    intro c m
    obtain ⟨ha1, ha2, ha3, ha4⟩ := iha (c + 1) m
    obtain ⟨hb1, hb2, hb3, hb4⟩ :=
      ihb (assignNumbers a (c + 1) m).2.1 (assignNumbers a (c + 1) m).2.2
    obtain ⟨hd1, hd2, hd3, hd4⟩ :=
      ihd (assignNumbers b (assignNumbers a (c + 1) m).2.1
          (assignNumbers a (c + 1) m).2.2).2.1
        (assignNumbers b (assignNumbers a (c + 1) m).2.1
          (assignNumbers a (c + 1) m).2.2).2.2
    refine ⟨?_, ?_, ?_, ?_⟩
    · simp only [assignNumbers_if, nums_if, shape, numberShape_none_fst,
        numberShape_append_fst, numberShape_append_ctr, numberShape_append_map]
      rw [ha1, hb1, hd1, hb3, hb4, ha3, ha4]
    · simp only [assignNumbers_if, namesN_if, shape]
      rw [ha2, hb2, hd2]
    · simp only [assignNumbers_if, shape, numberShape_none_ctr, numberShape_append_ctr,
        numberShape_append_map]
      rw [hd3, hb3, hb4, ha3, ha4]
    · simp only [assignNumbers_if, shape, numberShape_none_map, numberShape_append_ctr,
        numberShape_append_map]
      rw [hd4, hb3, hb4, ha3, ha4]
  | Let a b d iha ihb ihd =>
    intro c m
    obtain ⟨ha1, ha2, ha3, ha4⟩ := iha (c + 1) m
    obtain ⟨hb1, hb2, hb3, hb4⟩ :=
      ihb (assignNumbers a (c + 1) m).2.1 (assignNumbers a (c + 1) m).2.2
    obtain ⟨hd1, hd2, hd3, hd4⟩ :=
      ihd (assignNumbers b (assignNumbers a (c + 1) m).2.1
          (assignNumbers a (c + 1) m).2.2).2.1
        (assignNumbers b (assignNumbers a (c + 1) m).2.1
          (assignNumbers a (c + 1) m).2.2).2.2
    refine ⟨?_, ?_, ?_, ?_⟩
    · simp only [assignNumbers_let, nums_let, shape, numberShape_none_fst,
        numberShape_append_fst, numberShape_append_ctr, numberShape_append_map]
      rw [ha1, hb1, hd1, hb3, hb4, ha3, ha4]
    · simp only [assignNumbers_let, namesN_let, shape]
      rw [ha2, hb2, hd2]
    · simp only [assignNumbers_let, shape, numberShape_none_ctr, numberShape_append_ctr,
        numberShape_append_map]
      rw [hd3, hb3, hb4, ha3, ha4]
    · simp only [assignNumbers_let, shape, numberShape_none_map, numberShape_append_ctr,
        numberShape_append_map]
      rw [hd4, hb3, hb4, ha3, ha4]

theorem numberShape_length :
    ∀ (items : List (Option String)) (c : Nat) (m : VMap),
      (numberShape items c m).1.length = items.length := by
  intro items
  induction items with
  | nil => intro c m; rfl
  | cons a rest ih =>
    intro c m
    cases a with
    | none =>
      rw [numberShape_none_fst]
      simp [ih]
    | some s =>
      cases hms : m s with
      | some k0 =>
        rw [numberShape_some_old_fst rest c m s k0 hms]
        simp [ih]
      | none =>
        rw [numberShape_some_new_fst rest c m s hms]
        simp [ih]

theorem numberShape_bound :
    ∀ (items : List (Option String)) (c : Nat) (m : VMap),
      (∀ s k, m s = some k → k < c) →
      (∀ s t k, m s = some k → m t = some k → s = t) →
      ∀ k, k ∈ (numberShape items c m).1 → k < (numberShape items c m).2.1 := by
  intro items
  induction items with
  | nil =>
    intro c m _ _ k hk
    simp [numberShape] at hk
  | cons a rest ih =>
    intro c m hP1 hINJ k hk
    cases a with
    | none =>
      have hP1a : ∀ s k, m s = some k → k < c + 1 :=
        fun s k h => Nat.lt_succ_of_lt (hP1 s k h)
      obtain ⟨q1, _, _, _, _⟩ := numberShape_map rest (c + 1) m hP1a hINJ
      rw [numberShape_none_fst] at hk
      rw [numberShape_none_ctr]
      rcases List.mem_cons.mp hk with hk | hk
      · omega
      · exact ih (c + 1) m hP1a hINJ k hk
    | some s =>
      cases hms : m s with
      | some k0 =>
        obtain ⟨q1, _, _, _, _⟩ := numberShape_map rest c m hP1 hINJ
        rw [numberShape_some_old_fst rest c m s k0 hms] at hk
        rw [numberShape_some_old_ctr rest c m s k0 hms]
        rcases List.mem_cons.mp hk with hk | hk
        · have := hP1 s k0 hms
          omega
        · exact ih c m hP1 hINJ k hk
      | none =>
        obtain ⟨hP1a, hINJa⟩ := vmInsert_invariants m s c hP1 hINJ
        obtain ⟨q1, _, _, _, _⟩ := numberShape_map rest (c + 1) (vmInsert m s c) hP1a hINJa
        rw [numberShape_some_new_fst rest c m s hms] at hk
        rw [numberShape_some_new_ctr rest c m s hms]
        rcases List.mem_cons.mp hk with hk | hk
        · omega
        · exact ih (c + 1) (vmInsert m s c) hP1a hINJa k hk

theorem vmEmpty_P1 : ∀ s k, vmEmpty s = some k → k < 0 := by
  intro s k h
  simp [vmEmpty] at h

theorem vmEmpty_INJ : ∀ s t k, vmEmpty s = some k → vmEmpty t = some k → s = t := by
  intro s t k h
  simp [vmEmpty] at h

/-! ## Claim C5 -/

/-- Claim C5: the numbering stage is a pre-order traversal assigning integer
ids starting at 0: the distinct ids in order of first appearance are exactly
`0, ..., K-1` (so every non-`Var` node and every first occurrence of a name
receives a fresh id, handed out in pre-order), the ids used are exactly
`0` through `K-1` for the final counter `K`, and two positions carry the
same id exactly when they are the same position or both are `Var` occurrences
of the same name (so every later occurrence reuses the first occurrence's
id, and ids are never shared otherwise). -/
theorem numbering_preorder_ids (e : Node) :
    dedupF (nums (assignNumbers e 0 vmEmpty).1) =
      List.range (assignNumbers e 0 vmEmpty).2.1 ∧
    (∀ k, k ∈ nums (assignNumbers e 0 vmEmpty).1 ↔ k < (assignNumbers e 0 vmEmpty).2.1) ∧
    (∀ i j, i < (nums (assignNumbers e 0 vmEmpty).1).length →
      j < (nums (assignNumbers e 0 vmEmpty).1).length →
      ((nums (assignNumbers e 0 vmEmpty).1).getD i 0 =
          (nums (assignNumbers e 0 vmEmpty).1).getD j 0 ↔
        (i = j ∨ ∃ s, (namesN (assignNumbers e 0 vmEmpty).1).getD i none = some s ∧
          (namesN (assignNumbers e 0 vmEmpty).1).getD j none = some s))) := by
  obtain ⟨hnums, hnames, hctr, _⟩ := assignNumbers_shape e 0 vmEmpty
  rw [hnums, hnames, hctr]
  obtain ⟨q1, q2, q3, q4, q5⟩ := numberShape_map (shape e) 0 vmEmpty vmEmpty_P1 vmEmpty_INJ
  obtain ⟨r6, r7, r8⟩ := numberShape_pos (shape e) 0 vmEmpty vmEmpty_P1 vmEmpty_INJ
  have hlen := numberShape_length (shape e) 0 vmEmpty
  refine ⟨?_, ?_, ?_⟩
  · have := numberShape_dedup (shape e) 0 vmEmpty vmEmpty_P1 vmEmpty_INJ
    rw [List.filter_eq_self.mpr (fun a _ => by simp)] at this
    rw [this]
    rw [List.range_eq_range']
    simp
  · intro k
    constructor
    · exact numberShape_bound (shape e) 0 vmEmpty vmEmpty_P1 vmEmpty_INJ k
    · intro hk
      exact numberShape_cover (shape e) 0 vmEmpty k (Nat.zero_le k) hk
  · intro i j hi hj
    rw [hlen] at hi hj
    constructor
    · intro heq
      by_cases hij : i = j
      · exact Or.inl hij
      · cases hni : (shape e).getD i none with
        | none =>
          cases hnj : (shape e).getD j none with
          | none =>
            exfalso
            rcases Nat.lt_or_ge i j with hlt | hge
            · exact numberShape_nodup (shape e) 0 vmEmpty vmEmpty_P1 vmEmpty_INJ
                i j hlt hj hni hnj heq
            · have hlt : j < i := by omega
              exact numberShape_nodup (shape e) 0 vmEmpty vmEmpty_P1 vmEmpty_INJ
                j i hlt hi hnj hni heq.symm
          | some t =>
            exfalso
            have h6 := r6 j t hj hnj
            obtain ⟨_, hne⟩ := r7 i hi hni
            rw [heq] at hne
            exact hne t h6
        | some s =>
          cases hnj : (shape e).getD j none with
          | none =>
            exfalso
            have h6 := r6 i s hi hni
            obtain ⟨_, hne⟩ := r7 j hj hnj
            rw [← heq] at hne
            exact hne s h6
          | some t =>
            have h6i := r6 i s hi hni
            have h6j := r6 j t hj hnj
            rw [heq] at h6i
            have hst := q4 s t _ h6i h6j
            refine Or.inr ⟨s, rfl, ?_⟩
            rw [hst]
    · intro hcase
      rcases hcase with rfl | ⟨s, hsi, hsj⟩
      · rfl
      · have h6i := r6 i s hi hsi
        have h6j := r6 j s hj hsj
        rw [h6i] at h6j
        exact Option.some.inj h6j

theorem numbering_preorder_ids_witness :
    (dedupF (nums (assignNumbers (Node.Let (.Var "x") (.Int 1)
        (.Lt (.Var "x") (.Int 2))) 0 vmEmpty).1) =
      List.range (assignNumbers (Node.Let (.Var "x") (.Int 1)
        (.Lt (.Var "x") (.Int 2))) 0 vmEmpty).2.1) ∧
    ((nums (assignNumbers (Node.Let (.Var "x") (.Int 1)
        (.Lt (.Var "x") (.Int 2))) 0 vmEmpty).1).getD 1 0 =
      (nums (assignNumbers (Node.Let (.Var "x") (.Int 1)
        (.Lt (.Var "x") (.Int 2))) 0 vmEmpty).1).getD 4 0 ↔
      (1 = 4 ∨ ∃ s, (namesN (assignNumbers (Node.Let (.Var "x") (.Int 1)
          (.Lt (.Var "x") (.Int 2))) 0 vmEmpty).1).getD 1 none = some s ∧
        (namesN (assignNumbers (Node.Let (.Var "x") (.Int 1)
          (.Lt (.Var "x") (.Int 2))) 0 vmEmpty).1).getD 4 none = some s)) := by
  have h := numbering_preorder_ids (Node.Let (.Var "x") (.Int 1) (.Lt (.Var "x") (.Int 2)))
  exact ⟨h.1, h.2.2 1 4 (by decide) (by decide)⟩

/-! ## Constraint generation matches the per-construct table (claim C6) -/

/-- `dfs` with a threaded state is a left fold over the pre-order listing. -/
theorem dfsFold_eq_foldl {σ : Type} (f : σ → NNode → σ) :
    ∀ (nn : NNode) (s : σ), dfsFold f s nn = (preorderN nn).foldl f s := by
  intro nn
  induction nn with
  | Var n v => intro s; rfl
  | Int n v => intro s; rfl
  | Bool n v => intro s; rfl
  | Sub n a b iha ihb =>
      intro s
      simp only [dfsFold, preorderN, List.foldl_cons, List.foldl_append, iha, ihb]
  | Mul n a b iha ihb =>
      intro s
      simp only [dfsFold, preorderN, List.foldl_cons, List.foldl_append, iha, ihb]
  | Div n a b iha ihb =>
      intro s
      simp only [dfsFold, preorderN, List.foldl_cons, List.foldl_append, iha, ihb]
  | Lt n a b iha ihb =>
      intro s
      simp only [dfsFold, preorderN, List.foldl_cons, List.foldl_append, iha, ihb]
  | If n a b c iha ihb ihc =>
      intro s
      simp only [dfsFold, preorderN, List.foldl_cons, List.foldl_append, iha, ihb, ihc]
  | Let n a b c iha ihb ihc =>
      intro s
      simp only [dfsFold, preorderN, List.foldl_cons, List.foldl_append, iha, ihb, ihc]

/-- Folding list-append of a per-element emission is a `flatMap`. -/
theorem foldl_append_flatMap {α β : Type} (g : α → List β) :
    ∀ (l : List α) (acc : List β),
      l.foldl (fun a x => a ++ g x) acc = acc ++ l.flatMap g := by
  intro l
  induction l with
  | nil => intro acc; simp
  | cons x xs ih => intro acc; simp [ih]

/-- Claim C6: constraint generation emits, for every node, exactly the
equalities of the specification's per-construct table with sentinels
`INT = K` and `BOOL = K + 1` — `Var` emits none, `Int` emits `self = INT`,
`Bool` emits `self = BOOL`, `Sub`/`Mul`/`Div` emit `self = INT` and both
children `= INT`, `Lt` emits `self = BOOL` and both children `= INT`,
`If(c,t,e)` emits `self = t`, `c = BOOL`, `t = e`, and
`Let(name,bound,body)` emits `self = body`, `name = bound`; the full
constraint vector is the concatenation of the table rows over the
pre-order traversal. -/
theorem constraints_match_spec_table (K : Nat) :
    (∀ x : NNode, nodeEmit K x = specTable K x) ∧
    ∀ nn : NNode, genConstraints K nn = (preorderN nn).flatMap (specTable K) := by
  have h2 : ∀ x : NNode, nodeEmit K x = specTable K x := by
    intro x; cases x <;> rfl
  refine ⟨h2, ?_⟩
  intro nn
  have h1 : genConstraints K nn = (preorderN nn).flatMap (nodeEmit K) := by
    rw [genConstraints, dfsFold_eq_foldl, foldl_append_flatMap]
    simp
  rw [h1, funext h2]

/-! ## The printed rendering is not tokenizable (claim C9) -/

/-- The lexer rejects any input starting with `'['` immediately: `'['` is
not whitespace, alphabetic, a digit, or one of the recognized symbols. -/
theorem tokenizeAux_lbracket (fuel : Nat) (rest : List Char) (i : Nat) :
    tokenizeAux (fuel + 1) ('[' :: rest) i =
      .error ("Token Error: unrecognized character '" ++ String.mk ['['] ++
        "' at position " ++ toString i) := rfl

/-- Every node's printed rendering starts with `'['`. -/
theorem getLiteral_head (e : Node) : ∃ rest, (Node.getLiteral e).data = '[' :: rest := by
  cases e with
  | Var v => exact ⟨_, rfl⟩
  | Int v => exact ⟨_, rfl⟩
  | Bool b => cases b <;> exact ⟨_, rfl⟩
  | Sub a b => exact ⟨_, rfl⟩
  | Mul a b => exact ⟨_, rfl⟩
  | Div a b => exact ⟨_, rfl⟩
  | Lt a b => exact ⟨_, rfl⟩
  | If a b c => exact ⟨_, rfl⟩
  | Let a b c => exact ⟨_, rfl⟩

/-- Claim C9, corrected: the print–parse–print round trip fails at the very
first stage for EVERY node, because the printed rendering is the bracketed
debug form `[Kind ...]` and `'['` is not a character the lexer accepts:
tokenizing any node's rendering yields the token error at position 0, so
the rendering can never be parsed back. -/
theorem printed_rendering_not_tokenizable (e : Node) :
    tokenize (Node.getLiteral e) =
      .error "Token Error: unrecognized character '[' at position 0" := by
  obtain ⟨rest, hdata⟩ := getLiteral_head e
  show tokenizeAux ((Node.getLiteral e).data.length + 1) (Node.getLiteral e).data 0 = _
  rw [hdata]
  exact tokenizeAux_lbracket _ rest 0

/-- Counterexample to claim C9 as stated: the rendering of the integer
literal node `3` is `"[Int 3]"`, and tokenizing it fails, so no node kind
round-trips. -/
theorem printed_rendering_not_tokenizable_cex :
    Node.getLiteral (Node.Int 3) = "[Int 3]" ∧
    tokenize (Node.getLiteral (Node.Int 3)) =
      .error "Token Error: unrecognized character '[' at position 0" := by
  constructor
  · rfl
  · decide

/-! ## Lexing of `-` and negative literals (claim C8) -/

/-- At a `'-'` immediately followed by a digit, the lexer produces a
negative integer literal consuming the maximal contiguous digit run. -/
theorem tokenizeAux_minus (fuel : Nat) (d : Char) (ds : List Char) (i : Nat)
    (hd : isd d = true) :
    tokenizeAux (fuel + 1) ('-' :: d :: ds) i =
      (fun ts => Token.I (-(natOfDigits (d :: ds.takeWhile isd) : Int)) :: ts) <$>
        tokenizeAux fuel (ds.dropWhile isd) (i + 1 + (d :: ds.takeWhile isd).length) := by
  simp only [tokenizeAux]
  rw [if_neg (by decide), if_neg (by decide), if_neg (by decide), if_neg (by decide),
      if_pos (by decide)]
  rw [if_pos hd, List.takeWhile_cons_of_pos hd, List.dropWhile_cons_of_pos hd]

/-- At a `'-'` not immediately followed by a digit, the lexer produces the
subtraction keyword token. -/
theorem tokenizeAux_minus_nondigit (fuel : Nat) (c : Char) (cs : List Char) (i : Nat)
    (hc : isd c = false) :
    tokenizeAux (fuel + 1) ('-' :: c :: cs) i =
      (fun ts => Token.K "-" :: ts) <$> tokenizeAux fuel (c :: cs) (i + 1) := by
  simp only [tokenizeAux]
  rw [if_neg (by decide), if_neg (by decide), if_neg (by decide), if_neg (by decide),
      if_pos (by decide)]
  rw [if_neg (by simp [hc])]

/-- Claim C8: a `'-'` immediately followed by a digit begins a negative
integer literal consuming the maximal contiguous digit run, so lexing `-n`
for a digit sequence `n` yields the single token `I (-n)`; a `'-'` not
immediately followed by a digit lexes as the subtraction keyword, so
`"- 1"` lexes as the keyword `-` followed by the positive literal `1`, and
`"-"` alone lexes as the keyword `-`. -/
theorem minus_lexing :
    (∀ (d : Char) (ds : List Char), isd d = true → (∀ c ∈ ds, isd c = true) →
      tokenize (String.mk ('-' :: d :: ds)) =
        .ok [Token.I (-(natOfDigits (d :: ds) : Int))]) ∧
    (∀ (fuel : Nat) (c : Char) (cs : List Char) (i : Nat), isd c = false →
      tokenizeAux (fuel + 1) ('-' :: c :: cs) i =
        (fun ts => Token.K "-" :: ts) <$> tokenizeAux fuel (c :: cs) (i + 1)) ∧
    tokenize "- 1" = .ok [Token.K "-", Token.I 1] ∧
    tokenize "-" = .ok [Token.K "-"] := by
  refine ⟨?_, tokenizeAux_minus_nondigit, by decide, by decide⟩
  intro d ds hd hds
  have htake : ds.takeWhile isd = ds := List.takeWhile_eq_self_iff.mpr hds
  have hdrop : ds.dropWhile isd = [] := List.dropWhile_eq_nil_iff.mpr hds
  show tokenizeAux (('-' :: d :: ds).length + 1) ('-' :: d :: ds) 0 = _
  rw [tokenizeAux_minus _ d ds 0 hd, htake, hdrop]
  rfl

theorem minus_lexing_witness :
    tokenize (String.mk ['-', '4', '2']) = .ok [Token.I (-42)] ∧
    tokenizeAux 1 ['-', ' '] 0 = (fun ts => Token.K "-" :: ts) <$> tokenizeAux 0 [' '] 1 := by
  constructor
  · have h := minus_lexing.1 '4' ['2'] (by decide) (by decide)
    rw [h]
    rfl
  · exact minus_lexing.2.1 0 ' ' [] 0 (by decide)

/-! ## The parser ignores trailing tokens (claim C10) -/

/-- A successful parse is stable under adding fuel and appending extra
tokens after the consumed prefix: the same node is produced and the extra
tokens are passed through untouched. -/
theorem parseF_extend :
    ∀ (f : Nat) (md : PMode) (ts : List Token) (v : Node × List Token),
      parseF f md ts = .ok v →
      ∀ (g : Nat) (ex : List Token), f ≤ g →
        parseF g md (ts ++ ex) = .ok (v.1, v.2 ++ ex) := by
  intro f
  induction f with
  | zero =>
      intro md ts v h
      simp [parseF] at h
  | succ f ih =>
      intro md ts v h g ex hg
      obtain ⟨g', rfl⟩ : ∃ g', g = g' + 1 := ⟨g - 1, by omega⟩
      have hfg : f ≤ g' := by omega
      cases md with
      | head =>
          cases ts with
          | nil => simp [parseF] at h
          | cons t ts =>
              simp only [List.cons_append]
              cases t with
              | N w =>
                  simp only [parseF] at h ⊢
                  injection h with h2
                  subst h2
                  rfl
              | I n =>
                  simp only [parseF] at h ⊢
                  injection h with h2
                  subst h2
                  rfl
              | B b =>
                  simp only [parseF] at h ⊢
                  injection h with h2
                  subst h2
                  rfl
              | K w =>
                  simp only [parseF] at h ⊢
                  by_cases hw : w = "("
                  · rw [if_pos hw] at h ⊢
                    exact ih .tail ts v h g' ex hfg
                  · rw [if_neg hw] at h
                    simp at h
      | tail =>
          cases ts with
          | nil => simp [parseF] at h
          | cons t ts =>
              simp only [List.cons_append]
              simp only [parseF] at h ⊢
              by_cases h1 : t.getLiteral = "-"
              · rw [if_pos h1] at h ⊢
                exact ih _ ts v h g' ex hfg
              rw [if_neg h1] at h ⊢
              by_cases h2 : t.getLiteral = "*"
              · rw [if_pos h2] at h ⊢
                exact ih _ ts v h g' ex hfg
              rw [if_neg h2] at h ⊢
              by_cases h3 : t.getLiteral = "/"
              · rw [if_pos h3] at h ⊢
                exact ih _ ts v h g' ex hfg
              rw [if_neg h3] at h ⊢
              by_cases h4 : t.getLiteral = "<"
              · rw [if_pos h4] at h ⊢
                exact ih _ ts v h g' ex hfg
              rw [if_neg h4] at h ⊢
              by_cases h5 : t.getLiteral = "if"
              · rw [if_pos h5] at h ⊢
                cases hs1 : parseF f .head ts with
                | error e1 => simp [hs1] at h
                | ok w1 =>
                  obtain ⟨n1, q1⟩ := w1
                  cases q1 with
                  | nil => simp [hs1] at h
                  | cons r1 q2 =>
                    simp only [hs1] at h
                    simp only [ih .head ts (n1, r1 :: q2) hs1 g' ex hfg, List.cons_append]
                    by_cases h6 : r1.getLiteral = "then"
                    · rw [if_pos h6] at h ⊢
                      cases hs2 : parseF f .head q2 with
                      | error e2 => simp [hs2] at h
                      | ok w2 =>
                        obtain ⟨n2, q3⟩ := w2
                        cases q3 with
                        | nil => simp [hs2] at h
                        | cons r2 q4 =>
                          simp only [hs2] at h
                          simp only [ih .head q2 (n2, r2 :: q4) hs2 g' ex hfg,
                            List.cons_append]
                          by_cases h7 : r2.getLiteral = "else"
                          · rw [if_pos h7] at h ⊢
                            cases hs3 : parseF f .head q4 with
                            | error e3 => simp [hs3] at h
                            | ok w3 =>
                              obtain ⟨n3, q5⟩ := w3
                              cases q5 with
                              | nil => simp [hs3] at h
                              | cons r3 q6 =>
                                simp only [hs3] at h
                                simp only [ih .head q4 (n3, r3 :: q6) hs3 g' ex hfg,
                                  List.cons_append]
                                by_cases h8 : r3.getLiteral = ")"
                                · rw [if_pos h8] at h ⊢
                                  injection h with h9
                                  subst h9
                                  rfl
                                · rw [if_neg h8] at h
                                  simp at h
                          · rw [if_neg h7] at h
                            simp at h
                    · rw [if_neg h6] at h
                      simp at h
              · rw [if_neg h5] at h ⊢
                by_cases h6 : t.getLiteral = "let"
                · rw [if_pos h6] at h ⊢
                  cases hs1 : parseF f .head ts with
                  | error e1 => simp [hs1] at h
                  | ok w1 =>
                    obtain ⟨n1, q1⟩ := w1
                    cases n1 with
                    | Var w =>
                        cases q1 with
                        | nil => simp [hs1] at h
                        | cons r1 q2 =>
                          simp only [hs1] at h
                          simp only [ih .head ts (.Var w, r1 :: q2) hs1 g' ex hfg,
                            List.cons_append]
                          by_cases h7 : r1.getLiteral = "="
                          · rw [if_pos h7] at h ⊢
                            cases hs2 : parseF f .head q2 with
                            | error e2 => simp [hs2] at h
                            | ok w2 =>
                              obtain ⟨n2, q3⟩ := w2
                              cases q3 with
                              | nil => simp [hs2] at h
                              | cons r2 q4 =>
                                simp only [hs2] at h
                                simp only [ih .head q2 (n2, r2 :: q4) hs2 g' ex hfg,
                                  List.cons_append]
                                by_cases h8 : r2.getLiteral = "in"
                                · rw [if_pos h8] at h ⊢
                                  cases hs3 : parseF f .head q4 with
                                  | error e3 => simp [hs3] at h
                                  | ok w3 =>
                                    obtain ⟨n3, q5⟩ := w3
                                    cases q5 with
                                    | nil => simp [hs3] at h
                                    | cons r3 q6 =>
                                      simp only [hs3] at h
                                      simp only [ih .head q4 (n3, r3 :: q6) hs3 g' ex hfg,
                                        List.cons_append]
                                      by_cases h9 : r3.getLiteral = ")"
                                      · rw [if_pos h9] at h ⊢
                                        injection h with h10
                                        subst h10
                                        rfl
                                      · rw [if_neg h9] at h
                                        simp at h
                                · rw [if_neg h8] at h
                                  simp at h
                          · rw [if_neg h7] at h
                            simp at h
                    | Int n => simp [hs1] at h
                    | Bool b => simp [hs1] at h
                    | Sub a b => simp [hs1] at h
                    | Mul a b => simp [hs1] at h
                    | Div a b => simp [hs1] at h
                    | Lt a b => simp [hs1] at h
                    | If a b c => simp [hs1] at h
                    | Let a b c => simp [hs1] at h
                · rw [if_neg h6] at h
                  simp at h
      | bin mk opname =>
          simp only [parseF] at h ⊢
          cases hs1 : parseF f .head ts with
          | error e1 => simp [hs1] at h
          | ok w1 =>
            obtain ⟨n1, q1⟩ := w1
            simp only [hs1] at h
            simp only [ih .head ts (n1, q1) hs1 g' ex hfg]
            cases hs2 : parseF f .head q1 with
            | error e2 => simp [hs2] at h
            | ok w2 =>
              obtain ⟨n2, q2⟩ := w2
              cases q2 with
              | nil => simp [hs2] at h
              | cons r q3 =>
                simp only [hs2] at h
                simp only [ih .head q1 (n2, r :: q3) hs2 g' ex hfg, List.cons_append]
                by_cases hr : r.getLiteral = ")"
                · rw [if_pos hr] at h ⊢
                  injection h with h9
                  subst h9
                  rfl
                · rw [if_neg hr] at h
                  simp at h

/-- Claim C10: `parse` succeeds on any token sequence that has a valid
expression as a prefix, returning the AST of that prefix and silently
ignoring all trailing tokens; in particular the token sequence of
`"1 2"` parses successfully as the integer literal `1`. -/
theorem parse_ignores_trailing_tokens :
    (∀ (pre ex : List Token) (e : Node),
      parseHead (2 * pre.length + 2) pre = .ok (e, []) →
      parse (pre ++ ex) = .ok e) ∧
    parse [Token.I 1, Token.I 2] = .ok (.Int 1) ∧
    tokenize "1 2" = .ok [Token.I 1, Token.I 2] := by
  refine ⟨?_, by decide, by decide⟩
  intro pre ex e h
  have h2 := parseF_extend (2 * pre.length + 2) .head pre (e, []) h
      (2 * (pre ++ ex).length + 2) ex (by simp [List.length_append])
  show (parseF (2 * (pre ++ ex).length + 2) .head (pre ++ ex)).map Prod.fst = .ok e
  rw [h2]
  rfl

theorem parse_ignores_trailing_tokens_witness :
    parse ([Token.I 5] ++ [Token.K ")"]) = .ok (.Int 5) :=
  parse_ignores_trailing_tokens.1 [Token.I 5] [Token.K ")"] (.Int 5) (by decide)

/-! ## The reporting pass (`add_var`): labels and keys (claims C1, C2) -/

/-- The constraint vector is the flat concatenation of per-node emissions in
pre-order. -/
theorem genConstraints_flatMap (K : Nat) (nn : NNode) :
    genConstraints K nn = (preorderN nn).flatMap (nodeEmit K) := by
  rw [genConstraints, dfsFold_eq_foldl, foldl_append_flatMap]
  simp

/-- Every node's own id is in its id list. -/
theorem num_mem_nums (x : NNode) : x.num ∈ nums x := by
  cases x <;> simp [nums, preorderN, NNode.num]

/-- Ids of a subtree are ids of the whole tree. -/
theorem nums_sub_mem :
    ∀ (nn x : NNode), x ∈ preorderN nn → ∀ k, k ∈ nums x → k ∈ nums nn := by
  intro nn
  induction nn with
  | Var n v =>
      intro x hx k hk
      simp only [preorderN, List.mem_singleton] at hx
      subst hx
      exact hk
  | Int n v =>
      intro x hx k hk
      simp only [preorderN, List.mem_singleton] at hx
      subst hx
      exact hk
  | Bool n v =>
      intro x hx k hk
      simp only [preorderN, List.mem_singleton] at hx
      subst hx
      exact hk
  | Sub n a b iha ihb =>
      intro x hx k hk
      simp only [preorderN, List.mem_cons, List.mem_append] at hx
      rw [nums_sub]
      rcases hx with hx | hx | hx
      · subst hx
        rw [nums_sub] at hk
        exact hk
      · exact List.mem_cons_of_mem _ (List.mem_append_left _ (iha x hx k hk))
      · exact List.mem_cons_of_mem _ (List.mem_append_right _ (ihb x hx k hk))
  | Mul n a b iha ihb =>
      intro x hx k hk
      simp only [preorderN, List.mem_cons, List.mem_append] at hx
      rw [nums_mul]
      rcases hx with hx | hx | hx
      · subst hx
        rw [nums_mul] at hk
        exact hk
      · exact List.mem_cons_of_mem _ (List.mem_append_left _ (iha x hx k hk))
      · exact List.mem_cons_of_mem _ (List.mem_append_right _ (ihb x hx k hk))
  | Div n a b iha ihb =>
      intro x hx k hk
      simp only [preorderN, List.mem_cons, List.mem_append] at hx
      rw [nums_div]
      rcases hx with hx | hx | hx
      · subst hx
        rw [nums_div] at hk
        exact hk
      · exact List.mem_cons_of_mem _ (List.mem_append_left _ (iha x hx k hk))
      · exact List.mem_cons_of_mem _ (List.mem_append_right _ (ihb x hx k hk))
  | Lt n a b iha ihb =>
      intro x hx k hk
      simp only [preorderN, List.mem_cons, List.mem_append] at hx
      rw [nums_lt]
      rcases hx with hx | hx | hx
      · subst hx
        rw [nums_lt] at hk
        exact hk
      · exact List.mem_cons_of_mem _ (List.mem_append_left _ (iha x hx k hk))
      · exact List.mem_cons_of_mem _ (List.mem_append_right _ (ihb x hx k hk))
  | If n a b c iha ihb ihc =>
      intro x hx k hk
      simp only [preorderN, List.mem_cons, List.mem_append] at hx
      rw [nums_if]
      rcases hx with hx | (hx | hx) | hx
      · subst hx
        rw [nums_if] at hk
        exact hk
      · exact List.mem_cons_of_mem _
          (List.mem_append_left _ (List.mem_append_left _ (iha x hx k hk)))
      · exact List.mem_cons_of_mem _
          (List.mem_append_left _ (List.mem_append_right _ (ihb x hx k hk)))
      · exact List.mem_cons_of_mem _ (List.mem_append_right _ (ihc x hx k hk))
  | Let n a b c iha ihb ihc =>
      intro x hx k hk
      simp only [preorderN, List.mem_cons, List.mem_append] at hx
      rw [nums_let]
      rcases hx with hx | (hx | hx) | hx
      · subst hx
        rw [nums_let] at hk
        exact hk
      · exact List.mem_cons_of_mem _
          (List.mem_append_left _ (List.mem_append_left _ (iha x hx k hk)))
      · exact List.mem_cons_of_mem _
          (List.mem_append_left _ (List.mem_append_right _ (ihb x hx k hk)))
      · exact List.mem_cons_of_mem _ (List.mem_append_right _ (ihc x hx k hk))

/-- Both sides of every emitted constraint are a subtree id or a sentinel. -/
theorem nodeEmit_ids (K : Nat) (x : NNode) :
    ∀ c ∈ nodeEmit K x,
      (c.1 ∈ nums x ∨ c.1 = K ∨ c.1 = K + 1) ∧
      (c.2 ∈ nums x ∨ c.2 = K ∨ c.2 = K + 1) := by
  intro c hc
  cases x with
  | Var n v => simp [nodeEmit] at hc
  | Int n v =>
      simp only [nodeEmit, List.mem_singleton] at hc
      subst hc
      exact ⟨Or.inl (num_mem_nums _), Or.inr (Or.inl rfl)⟩
  | Bool n v =>
      simp only [nodeEmit, List.mem_singleton] at hc
      subst hc
      exact ⟨Or.inl (num_mem_nums _), Or.inr (Or.inr rfl)⟩
  | Sub n a b =>
      simp only [nodeEmit, List.mem_cons, List.not_mem_nil, or_false] at hc
      rcases hc with hc | hc | hc <;> subst hc
      · exact ⟨Or.inl (by rw [nums_sub]; exact List.mem_cons_self _ _), Or.inr (Or.inl rfl)⟩
      · exact ⟨Or.inl (by
          rw [nums_sub]
          exact List.mem_cons_of_mem _ (List.mem_append_left _ (num_mem_nums a))),
          Or.inr (Or.inl rfl)⟩
      · exact ⟨Or.inl (by
          rw [nums_sub]
          exact List.mem_cons_of_mem _ (List.mem_append_right _ (num_mem_nums b))),
          Or.inr (Or.inl rfl)⟩
  | Mul n a b =>
      simp only [nodeEmit, List.mem_cons, List.not_mem_nil, or_false] at hc
      rcases hc with hc | hc | hc <;> subst hc
      · exact ⟨Or.inl (by rw [nums_mul]; exact List.mem_cons_self _ _), Or.inr (Or.inl rfl)⟩
      · exact ⟨Or.inl (by
          rw [nums_mul]
          exact List.mem_cons_of_mem _ (List.mem_append_left _ (num_mem_nums a))),
          Or.inr (Or.inl rfl)⟩
      · exact ⟨Or.inl (by
          rw [nums_mul]
          exact List.mem_cons_of_mem _ (List.mem_append_right _ (num_mem_nums b))),
          Or.inr (Or.inl rfl)⟩
  | Div n a b =>
      simp only [nodeEmit, List.mem_cons, List.not_mem_nil, or_false] at hc
      rcases hc with hc | hc | hc <;> subst hc
      · exact ⟨Or.inl (by rw [nums_div]; exact List.mem_cons_self _ _), Or.inr (Or.inl rfl)⟩
      · exact ⟨Or.inl (by
          rw [nums_div]
          exact List.mem_cons_of_mem _ (List.mem_append_left _ (num_mem_nums a))),
          Or.inr (Or.inl rfl)⟩
      · exact ⟨Or.inl (by
          rw [nums_div]
          exact List.mem_cons_of_mem _ (List.mem_append_right _ (num_mem_nums b))),
          Or.inr (Or.inl rfl)⟩
  | Lt n a b =>
      simp only [nodeEmit, List.mem_cons, List.not_mem_nil, or_false] at hc
      rcases hc with hc | hc | hc <;> subst hc
      · exact ⟨Or.inl (by rw [nums_lt]; exact List.mem_cons_self _ _), Or.inr (Or.inr rfl)⟩
      · exact ⟨Or.inl (by
          rw [nums_lt]
          exact List.mem_cons_of_mem _ (List.mem_append_left _ (num_mem_nums a))),
          Or.inr (Or.inl rfl)⟩
      · exact ⟨Or.inl (by
          rw [nums_lt]
          exact List.mem_cons_of_mem _ (List.mem_append_right _ (num_mem_nums b))),
          Or.inr (Or.inl rfl)⟩
  | If n a b c2 =>
      simp only [nodeEmit, List.mem_cons, List.not_mem_nil, or_false] at hc
      have hma : a.num ∈ nums (NNode.If n a b c2) := by
        rw [nums_if]
        exact List.mem_cons_of_mem _
          (List.mem_append_left _ (List.mem_append_left _ (num_mem_nums a)))
      have hmb : b.num ∈ nums (NNode.If n a b c2) := by
        rw [nums_if]
        exact List.mem_cons_of_mem _
          (List.mem_append_left _ (List.mem_append_right _ (num_mem_nums b)))
      have hmc : c2.num ∈ nums (NNode.If n a b c2) := by
        rw [nums_if]
        exact List.mem_cons_of_mem _ (List.mem_append_right _ (num_mem_nums c2))
      rcases hc with hc | hc | hc <;> subst hc
      · exact ⟨Or.inl (by rw [nums_if]; exact List.mem_cons_self _ _), Or.inl hmb⟩
      · exact ⟨Or.inl hma, Or.inr (Or.inr rfl)⟩
      · exact ⟨Or.inl hmb, Or.inl hmc⟩
  | Let n a b c2 =>
      simp only [nodeEmit, List.mem_cons, List.not_mem_nil, or_false] at hc
      have hma : a.num ∈ nums (NNode.Let n a b c2) := by
        rw [nums_let]
        exact List.mem_cons_of_mem _
          (List.mem_append_left _ (List.mem_append_left _ (num_mem_nums a)))
      have hmb : b.num ∈ nums (NNode.Let n a b c2) := by
        rw [nums_let]
        exact List.mem_cons_of_mem _
          (List.mem_append_left _ (List.mem_append_right _ (num_mem_nums b)))
      have hmc : c2.num ∈ nums (NNode.Let n a b c2) := by
        rw [nums_let]
        exact List.mem_cons_of_mem _ (List.mem_append_right _ (num_mem_nums c2))
      rcases hc with hc | hc <;> subst hc
      · exact ⟨Or.inl (by rw [nums_let]; exact List.mem_cons_self _ _), Or.inl hmc⟩
      · exact ⟨Or.inl hma, Or.inl hmb⟩

/-- In the pipeline run, every assigned id is below the final counter. -/
theorem nums_lt_K (root : Node) :
    ∀ k ∈ nums (assignNumbers root 0 vmEmpty).1, k < (assignNumbers root 0 vmEmpty).2.1 := by
  intro k hk
  obtain ⟨h1, _, h3, _⟩ := assignNumbers_shape root 0 vmEmpty
  rw [h1] at hk
  rw [h3]
  exact numberShape_bound (shape root) 0 vmEmpty vmEmpty_P1 vmEmpty_INJ k hk

/-- When every id is below `K`, every constraint is within `K + 2`. -/
theorem genConstraints_range (K : Nat) (nn : NNode)
    (h : ∀ k ∈ nums nn, k < K) :
    ∀ c ∈ genConstraints K nn, c.1 < K + 2 ∧ c.2 < K + 2 := by
  intro c hc
  rw [genConstraints_flatMap] at hc
  obtain ⟨x, hx, hcx⟩ := List.mem_flatMap.mp hc
  obtain ⟨h1, h2⟩ := nodeEmit_ids K x c hcx
  constructor
  · rcases h1 with h1 | h1 | h1
    · have := h c.1 (nums_sub_mem nn x hx c.1 h1)
      omega
    · omega
    · omega
  · rcases h2 with h2 | h2 | h2
    · have := h c.2 (nums_sub_mem nn x hx c.2 h2)
      omega
    · omega
    · omega

/-- `add_var`'s label for one variable id: the reported label classifies the
id's representative (`INT` sentinel, `BOOL` sentinel, or generic), and the
extra `find` calls only compress paths, preserving every root and `n`. -/
theorem varLabel_spec (K : Nat) (uf : UnionFind) (num : Nat) (h : WF uf) :
    WF (varLabel K uf num).2 ∧
    (∀ z, (varLabel K uf num).2.rootOf z = uf.rootOf z) ∧
    (varLabel K uf num).2.n = uf.n ∧
    LabelOf K uf num (varLabel K uf num).1 := by
  obtain ⟨hre1, hwf1, hpres1, hn1⟩ := find_spec h num
  by_cases h1 : (uf.find num).1 = K
  · have he : varLabel K uf num = ("INT", (uf.find num).2) := by
      simp only [varLabel]
      rw [if_pos h1]
    rw [he]
    exact ⟨hwf1, hpres1, hn1, Or.inl ⟨rfl, h1⟩⟩
  · obtain ⟨hre2, hwf2, hpres2, hn2⟩ := find_spec hwf1 num
    have hR2 : ((uf.find num).2.find num).1 = uf.rootOf num := hpres1 num
    by_cases h2 : ((uf.find num).2.find num).1 = K + 1
    · have he : varLabel K uf num = ("BOOL", ((uf.find num).2.find num).2) := by
        simp only [varLabel]
        rw [if_neg h1, if_pos h2]
      rw [he]
      refine ⟨hwf2, ?_, by rw [hn2, hn1], Or.inr (Or.inl ⟨rfl, by rw [← hR2]; exact h2⟩)⟩
      intro z
      rw [hpres2, hpres1]
    · obtain ⟨hre3, hwf3, hpres3, hn3⟩ := find_spec hwf2 num
      have hR3 : (((uf.find num).2.find num).2.find num).1 = uf.rootOf num := by
        have h4 := hpres2 num
        rw [hpres1 num] at h4
        exact h4
      have he : varLabel K uf num =
          ("GENERICS-" ++ toString ((((uf.find num).2.find num).2.find num).1),
            (((uf.find num).2.find num).2.find num).2) := by
        simp only [varLabel]
        rw [if_neg h1, if_neg h2]
      rw [he]
      refine ⟨hwf3, ?_, by rw [hn3, hn2, hn1], Or.inr (Or.inr ⟨by rw [hR3], h1, ?_⟩)⟩
      · intro z
        rw [hpres3, hpres2, hpres1]
      · rw [← hR2]
        exact h2

/-- The label classification only depends on the id's representative. -/
theorem LabelOf_congr {K num : Nat} {t : String} {uf1 uf2 : UnionFind}
    (h : uf1.rootOf num = uf2.rootOf num) : LabelOf K uf1 num t → LabelOf K uf2 num t := by
  intro hl
  simp only [LabelOf] at hl ⊢
  rw [← h]
  exact hl

/-- An entry of `mapAssign m k v` is the new binding or an entry of `m`. -/
theorem mem_mapAssign_elim :
    ∀ (m : List (String × String)) (k v : String) (x : String × String),
      x ∈ mapAssign m k v → x = (k, v) ∨ x ∈ m := by
  intro m
  induction m with
  | nil =>
      intro k v x hx
      simp only [mapAssign, List.mem_cons, List.not_mem_nil, or_false] at hx
      exact Or.inl hx
  | cons p rest ih =>
      intro k v x hx
      obtain ⟨k1, v1⟩ := p
      simp only [mapAssign] at hx
      by_cases h1 : strLtB k.data k1.data
      · rw [if_pos h1] at hx
        rcases List.mem_cons.mp hx with hx | hx
        · exact Or.inl hx
        · exact Or.inr hx
      · rw [if_neg h1] at hx
        by_cases h2 : k = k1
        · rw [if_pos h2] at hx
          rcases List.mem_cons.mp hx with hx | hx
          · exact Or.inl hx
          · exact Or.inr (List.mem_cons_of_mem _ hx)
        · rw [if_neg h2] at hx
          rcases List.mem_cons.mp hx with hx | hx
          · exact Or.inr (by rw [hx]; exact List.mem_cons_self _ _)
          · rcases ih k v x hx with hx2 | hx2
            · exact Or.inl hx2
            · exact Or.inr (List.mem_cons_of_mem _ hx2)

/-- The assigned binding is present after `mapAssign`. -/
theorem mapAssign_self_mem :
    ∀ (m : List (String × String)) (k v : String), (k, v) ∈ mapAssign m k v := by
  intro m
  induction m with
  | nil =>
      intro k v
      simp [mapAssign]
  | cons p rest ih =>
      intro k v
      obtain ⟨k1, v1⟩ := p
      simp only [mapAssign]
      by_cases h1 : strLtB k.data k1.data
      · rw [if_pos h1]
        exact List.mem_cons_self _ _
      · rw [if_neg h1]
        by_cases h2 : k = k1
        · rw [if_pos h2]
          exact List.mem_cons_self _ _
        · rw [if_neg h2]
          exact List.mem_cons_of_mem _ (ih k v)

/-- Entries under a different key survive `mapAssign`. -/
theorem mem_mapAssign_of_mem :
    ∀ (m : List (String × String)) (k v : String) (x : String × String),
      x ∈ m → x.1 ≠ k → x ∈ mapAssign m k v := by
  intro m
  induction m with
  | nil =>
      intro k v x hx _
      simp at hx
  | cons p rest ih =>
      intro k v x hx hne
      obtain ⟨k1, v1⟩ := p
      simp only [mapAssign]
      by_cases h1 : strLtB k.data k1.data
      · rw [if_pos h1]
        exact List.mem_cons_of_mem _ hx
      · rw [if_neg h1]
        by_cases h2 : k = k1
        · rw [if_pos h2]
          rcases List.mem_cons.mp hx with hx | hx
          · exact absurd (by rw [hx, h2]) hne
          · exact List.mem_cons_of_mem _ hx
        · rw [if_neg h2]
          rcases List.mem_cons.mp hx with hx | hx
          · rw [hx]
            exact List.mem_cons_self _ _
          · exact List.mem_cons_of_mem _ (ih k v x hx hne)

/-- `buildVarMap` as a left fold over the pre-order listing. -/
theorem buildVarMap_foldl (K : Nat) (uf : UnionFind) (nn : NNode) :
    buildVarMap K uf nn = (preorderN nn).foldl (addVarStep K) (uf, []) := by
  rw [buildVarMap, dfsFold_eq_foldl]

/-- The `add_var` fold invariant: the threaded union-find stays well-formed
with unchanged roots and size; every map entry is an initial entry or the
correctly classified label of some visited `Var`; every visited `Var` name
and every initial key ends up as a key. -/
theorem addVar_fold_spec (K : Nat) :
    ∀ (L : List NNode) (uf0 : UnionFind) (m0 : List (String × String)), WF uf0 →
      WF (L.foldl (addVarStep K) (uf0, m0)).1 ∧
      (∀ z, (L.foldl (addVarStep K) (uf0, m0)).1.rootOf z = uf0.rootOf z) ∧
      (L.foldl (addVarStep K) (uf0, m0)).1.n = uf0.n ∧
      (∀ x ∈ (L.foldl (addVarStep K) (uf0, m0)).2,
        x ∈ m0 ∨ ∃ num, NNode.Var num x.1 ∈ L ∧ LabelOf K uf0 num x.2) ∧
      (∀ num s, NNode.Var num s ∈ L →
        ∃ t, (s, t) ∈ (L.foldl (addVarStep K) (uf0, m0)).2) ∧
      (∀ x ∈ m0, ∃ t, (x.1, t) ∈ (L.foldl (addVarStep K) (uf0, m0)).2) := by
  intro L
  induction L with
  | nil =>
      intro uf0 m0 h
      refine ⟨h, fun z => rfl, rfl, ?_, ?_, ?_⟩
      · intro x hx
        exact Or.inl hx
      · intro num s hs
        simp at hs
      · rintro ⟨a, b⟩ hx
        exact ⟨b, hx⟩
  | cons cur L ih =>
      intro uf0 m0 h
      cases cur with
      | Var num name =>
          have hstep : (NNode.Var num name :: L).foldl (addVarStep K) (uf0, m0) =
              L.foldl (addVarStep K)
                ((varLabel K uf0 num).2, mapAssign m0 name (varLabel K uf0 num).1) := rfl
          obtain ⟨hwf1, hpres1, hn1, hlab1⟩ := varLabel_spec K uf0 num h
          obtain ⟨ih1, ih2, ih3, ih4, ih5, ih6⟩ :=
            ih (varLabel K uf0 num).2 (mapAssign m0 name (varLabel K uf0 num).1) hwf1
          rw [hstep]
          refine ⟨ih1, ?_, ?_, ?_, ?_, ?_⟩
          · intro z
            rw [ih2 z, hpres1 z]
          · rw [ih3, hn1]
          · intro x hx
            rcases ih4 x hx with hx2 | ⟨num2, hmem, hlab⟩
            · rcases mem_mapAssign_elim m0 name (varLabel K uf0 num).1 x hx2 with hx3 | hx3
              · refine Or.inr ⟨num, ?_, ?_⟩
                · rw [hx3]
                  exact List.mem_cons_self _ _
                · rw [hx3]
                  exact hlab1
              · exact Or.inl hx3
            · exact Or.inr ⟨num2, List.mem_cons_of_mem _ hmem,
                LabelOf_congr (hpres1 num2) hlab⟩
          · intro num2 s hs
            rcases List.mem_cons.mp hs with hs | hs
            · have hkey : (name, (varLabel K uf0 num).1) ∈
                  mapAssign m0 name (varLabel K uf0 num).1 := mapAssign_self_mem m0 _ _
              obtain ⟨t, ht⟩ := ih6 (name, (varLabel K uf0 num).1) hkey
              injection hs with hnum hname
              subst hname
              exact ⟨t, ht⟩
            · exact ih5 num2 s hs
          · intro x hx
            by_cases hxk : x.1 = name
            · have hkey : (name, (varLabel K uf0 num).1) ∈
                  mapAssign m0 name (varLabel K uf0 num).1 := mapAssign_self_mem m0 _ _
              obtain ⟨t, ht⟩ := ih6 (name, (varLabel K uf0 num).1) hkey
              rw [hxk]
              exact ⟨t, ht⟩
            · have hmem := mem_mapAssign_of_mem m0 name (varLabel K uf0 num).1 x hx hxk
              exact ih6 x hmem
      | Int n v =>
          obtain ⟨ih1, ih2, ih3, ih4, ih5, ih6⟩ := ih uf0 m0 h
          refine ⟨ih1, ih2, ih3, ?_, ?_, ih6⟩
          · intro x hx
            rcases ih4 x hx with hx2 | ⟨num2, hmem, hlab⟩
            · exact Or.inl hx2
            · exact Or.inr ⟨num2, List.mem_cons_of_mem _ hmem, hlab⟩
          · intro num2 s hs
            rcases List.mem_cons.mp hs with hs | hs
            · exact absurd hs (by simp)
            · exact ih5 num2 s hs
      | Bool n v =>
          obtain ⟨ih1, ih2, ih3, ih4, ih5, ih6⟩ := ih uf0 m0 h
          refine ⟨ih1, ih2, ih3, ?_, ?_, ih6⟩
          · intro x hx
            rcases ih4 x hx with hx2 | ⟨num2, hmem, hlab⟩
            · exact Or.inl hx2
            · exact Or.inr ⟨num2, List.mem_cons_of_mem _ hmem, hlab⟩
          · intro num2 s hs
            rcases List.mem_cons.mp hs with hs | hs
            · exact absurd hs (by simp)
            · exact ih5 num2 s hs
      | Sub n a b =>
          obtain ⟨ih1, ih2, ih3, ih4, ih5, ih6⟩ := ih uf0 m0 h
          refine ⟨ih1, ih2, ih3, ?_, ?_, ih6⟩
          · intro x hx
            rcases ih4 x hx with hx2 | ⟨num2, hmem, hlab⟩
            · exact Or.inl hx2
            · exact Or.inr ⟨num2, List.mem_cons_of_mem _ hmem, hlab⟩
          · intro num2 s hs
            rcases List.mem_cons.mp hs with hs | hs
            · exact absurd hs (by simp)
            · exact ih5 num2 s hs
      | Mul n a b =>
          obtain ⟨ih1, ih2, ih3, ih4, ih5, ih6⟩ := ih uf0 m0 h
          refine ⟨ih1, ih2, ih3, ?_, ?_, ih6⟩
          · intro x hx
            rcases ih4 x hx with hx2 | ⟨num2, hmem, hlab⟩
            · exact Or.inl hx2
            · exact Or.inr ⟨num2, List.mem_cons_of_mem _ hmem, hlab⟩
          · intro num2 s hs
            rcases List.mem_cons.mp hs with hs | hs
            · exact absurd hs (by simp)
            · exact ih5 num2 s hs
      | Div n a b =>
          obtain ⟨ih1, ih2, ih3, ih4, ih5, ih6⟩ := ih uf0 m0 h
          refine ⟨ih1, ih2, ih3, ?_, ?_, ih6⟩
          · intro x hx
            rcases ih4 x hx with hx2 | ⟨num2, hmem, hlab⟩
            · exact Or.inl hx2
            · exact Or.inr ⟨num2, List.mem_cons_of_mem _ hmem, hlab⟩
          · intro num2 s hs
            rcases List.mem_cons.mp hs with hs | hs
            · exact absurd hs (by simp)
            · exact ih5 num2 s hs
      | Lt n a b =>
          obtain ⟨ih1, ih2, ih3, ih4, ih5, ih6⟩ := ih uf0 m0 h
          refine ⟨ih1, ih2, ih3, ?_, ?_, ih6⟩
          · intro x hx
            rcases ih4 x hx with hx2 | ⟨num2, hmem, hlab⟩
            · exact Or.inl hx2
            · exact Or.inr ⟨num2, List.mem_cons_of_mem _ hmem, hlab⟩
          · intro num2 s hs
            rcases List.mem_cons.mp hs with hs | hs
            · exact absurd hs (by simp)
            · exact ih5 num2 s hs
      | If n a b c =>
          obtain ⟨ih1, ih2, ih3, ih4, ih5, ih6⟩ := ih uf0 m0 h
          refine ⟨ih1, ih2, ih3, ?_, ?_, ih6⟩
          · intro x hx
            rcases ih4 x hx with hx2 | ⟨num2, hmem, hlab⟩
            · exact Or.inl hx2
            · exact Or.inr ⟨num2, List.mem_cons_of_mem _ hmem, hlab⟩
          · intro num2 s hs
            rcases List.mem_cons.mp hs with hs | hs
            · exact absurd hs (by simp)
            · exact ih5 num2 s hs
      | Let n a b c =>
          obtain ⟨ih1, ih2, ih3, ih4, ih5, ih6⟩ := ih uf0 m0 h
          refine ⟨ih1, ih2, ih3, ?_, ?_, ih6⟩
          · intro x hx
            rcases ih4 x hx with hx2 | ⟨num2, hmem, hlab⟩
            · exact Or.inl hx2
            · exact Or.inr ⟨num2, List.mem_cons_of_mem _ hmem, hlab⟩
          · intro num2 s hs
            rcases List.mem_cons.mp hs with hs | hs
            · exact absurd hs (by simp)
            · exact ih5 num2 s hs

/-- A name appears in the pre-order shape sequence of a numbered tree
exactly when some `Var` node of the tree carries it. -/
theorem mem_namesN (nn : NNode) (s : String) :
    some s ∈ namesN nn ↔ ∃ num, NNode.Var num s ∈ preorderN nn := by
  show some s ∈ (preorderN nn).map NNode.varName ↔ _
  rw [List.mem_map]
  constructor
  · rintro ⟨x, hx, hvx⟩
    cases x with
    | Var num v =>
        simp only [NNode.varName] at hvx
        injection hvx with hv
        subst hv
        exact ⟨num, hx⟩
    | Int n v => simp [NNode.varName] at hvx
    | Bool n v => simp [NNode.varName] at hvx
    | Sub n a b => simp [NNode.varName] at hvx
    | Mul n a b => simp [NNode.varName] at hvx
    | Div n a b => simp [NNode.varName] at hvx
    | Lt n a b => simp [NNode.varName] at hvx
    | If n a b c => simp [NNode.varName] at hvx
    | Let n a b c => simp [NNode.varName] at hvx
  · rintro ⟨num, hmem⟩
    exact ⟨NNode.Var num s, hmem, rfl⟩

/-- A name appears in the shape sequence of an expression exactly when it is
one of the expression's variable names. -/
theorem mem_shape_varNames (e : Node) (s : String) :
    some s ∈ shape e ↔ s ∈ varNames e := by
  induction e with
  | Var v => simp [shape, varNames]
  | Int v => simp [shape, varNames]
  | Bool v => simp [shape, varNames]
  | Sub a b iha ihb => simp [shape, varNames, iha, ihb]
  | Mul a b iha ihb => simp [shape, varNames, iha, ihb]
  | Div a b iha ihb => simp [shape, varNames, iha, ihb]
  | Lt a b iha ihb => simp [shape, varNames, iha, ihb]
  | If a b c iha ihb ihc => simp [shape, varNames, iha, ihb, ihc]
  | Let a b c iha ihb ihc => simp [shape, varNames, iha, ihb, ihc]

/-- Claim C1, corrected: on success `typecheck` returns a map whose keys are
exactly the expression's variable names — let-bound names included, so the
map is NOT empty for a closed expression containing variables; on failure
the error is always a unification type error naming the two ground types
(never a syntax error).  The claimed example `( let x = 1 in ( < x 2 ) )`
(which has no free variables) produces the one-line report `x :: INT`,
not an empty report. -/
theorem closed_expression_report :
    (∀ (root : Node) (m : List (String × String)), typecheck root = .ok m →
      ∀ s : String, (∃ t, (s, t) ∈ m) ↔ s ∈ varNames root) ∧
    (∀ (root : Node) (e : String), typecheck root = .error e →
      e = "Type Error: cannot unify INT and BOOL" ∨
      e = "Type Error: cannot unify BOOL and INT") ∧
    typecheckLine "( let x = 1 in ( < x 2 ) )" = .ok [("x", "INT")] := by
  have hrange : ∀ root : Node,
      ∀ c ∈ genConstraints (assignNumbers root 0 vmEmpty).2.1
        (assignNumbers root 0 vmEmpty).1,
        c.1 < (assignNumbers root 0 vmEmpty).2.1 + 2 ∧
        c.2 < (assignNumbers root 0 vmEmpty).2.1 + 2 :=
    fun root => genConstraints_range _ _ (nums_lt_K root)
  refine ⟨?_, ?_, by decide⟩
  · intro root m hok s
    simp only [typecheck] at hok
    cases hsol : solveAll (assignNumbers root 0 vmEmpty).2.1
        (UnionFind.init ((assignNumbers root 0 vmEmpty).2.1 + 2))
        (genConstraints (assignNumbers root 0 vmEmpty).2.1
          (assignNumbers root 0 vmEmpty).1) with
    | error e =>
        rw [hsol] at hok
        simp at hok
    | ok uf =>
        rw [hsol] at hok
        injection hok with hok2
        subst hok2
        obtain ⟨hwf, _⟩ := solveAll_wf _ _ _ (WF_init _)
          (fun c hc => (hrange root c hc)) hsol
        obtain ⟨_, _, _, hentry, hkeys, _⟩ :=
          addVar_fold_spec (assignNumbers root 0 vmEmpty).2.1
            (preorderN (assignNumbers root 0 vmEmpty).1) uf [] hwf
        rw [buildVarMap_foldl]
        constructor
        · rintro ⟨t, ht⟩
          rcases hentry (s, t) ht with hx | ⟨num, hmem, _⟩
          · simp at hx
          · have hname : some s ∈ namesN (assignNumbers root 0 vmEmpty).1 :=
              (mem_namesN _ s).mpr ⟨num, hmem⟩
            rw [(assignNumbers_shape root 0 vmEmpty).2.1] at hname
            exact (mem_shape_varNames root s).mp hname
        · intro hs
          have hname : some s ∈ shape root := (mem_shape_varNames root s).mpr hs
          rw [← (assignNumbers_shape root 0 vmEmpty).2.1] at hname
          obtain ⟨num, hmem⟩ := (mem_namesN _ s).mp hname
          exact hkeys num s hmem
  · intro root e herr
    simp only [typecheck] at herr
    cases hsol : solveAll (assignNumbers root 0 vmEmpty).2.1
        (UnionFind.init ((assignNumbers root 0 vmEmpty).2.1 + 2))
        (genConstraints (assignNumbers root 0 vmEmpty).2.1
          (assignNumbers root 0 vmEmpty).1) with
    | error e2 =>
        rw [hsol] at herr
        injection herr with herr2
        subst herr2
        exact solveAll_error_msg _ _ _ (WF_init _)
          (fun c hc => hrange root c hc) rfl hsol
    | ok uf =>
        rw [hsol] at herr
        simp at herr

theorem closed_expression_report_witness :
    ((∃ t, (("x" : String), t) ∈ [(("x" : String), ("INT" : String))]) ↔
      "x" ∈ varNames (Node.Let (.Var "x") (.Int 1) (.Lt (.Var "x") (.Int 2)))) ∧
    (("Type Error: cannot unify INT and BOOL" : String) =
        "Type Error: cannot unify INT and BOOL" ∨
      ("Type Error: cannot unify INT and BOOL" : String) =
        "Type Error: cannot unify BOOL and INT") :=
  ⟨closed_expression_report.1 (Node.Let (.Var "x") (.Int 1) (.Lt (.Var "x") (.Int 2)))
      [("x", "INT")] (by decide) "x",
    closed_expression_report.2.1 (Node.If (.Var "x") (.Int 1) (.Bool true))
      "Type Error: cannot unify INT and BOOL" (by decide)⟩

set_option maxHeartbeats 1000000 in
/-- Counterexample to claim C1 as stated: the expression
`( let x = 1 in ( < x 2 ) )` has no free variables, yet `typecheck`
succeeds with the NON-empty map `x :: INT` — `add_var` reports every
variable occurrence, let-bound or not. -/
theorem closed_expression_report_cex :
    freeVars (Node.Let (.Var "x") (.Int 1) (.Lt (.Var "x") (.Int 2))) = [] ∧
    typecheck (Node.Let (.Var "x") (.Int 1) (.Lt (.Var "x") (.Int 2))) =
      .ok [("x", "INT")] ∧
    typecheckLine "( let x = 1 in ( < x 2 ) )" = .ok [("x", "INT")] ∧
    [(("x" : String), ("INT" : String))] ≠ [] := by
  refine ⟨by decide, by decide, by decide, by decide⟩

/-- Claim C2, corrected: every label in a successful report is classified by
`LabelOf`: it is exactly `"INT"`, `"BOOL"`, or `"GENERICS-<id>"` — with
prefix `GENERICS-`, not the claimed `GENERIC-` — where `<id>` is the
representative of the variable's assigned number in the solved union-find;
for the single-variable input `x` the output line is `x :: GENERICS-0`. -/
theorem report_labels :
    (∀ (root : Node) (m : List (String × String)), typecheck root = .ok m →
      ∀ x ∈ m, ∃ uf,
        solveAll (assignNumbers root 0 vmEmpty).2.1
          (UnionFind.init ((assignNumbers root 0 vmEmpty).2.1 + 2))
          (genConstraints (assignNumbers root 0 vmEmpty).2.1
            (assignNumbers root 0 vmEmpty).1) = .ok uf ∧
        ∃ num, NNode.Var num x.1 ∈ preorderN (assignNumbers root 0 vmEmpty).1 ∧
          LabelOf (assignNumbers root 0 vmEmpty).2.1 uf num x.2) ∧
    typecheckLine "x" = .ok [("x", "GENERICS-0")] := by
  refine ⟨?_, by decide⟩
  intro root m hok x hx
  simp only [typecheck] at hok
  cases hsol : solveAll (assignNumbers root 0 vmEmpty).2.1
      (UnionFind.init ((assignNumbers root 0 vmEmpty).2.1 + 2))
      (genConstraints (assignNumbers root 0 vmEmpty).2.1
        (assignNumbers root 0 vmEmpty).1) with
  | error e =>
      rw [hsol] at hok
      simp at hok
  | ok uf =>
      rw [hsol] at hok
      injection hok with hok2
      subst hok2
      obtain ⟨hwf, _⟩ := solveAll_wf _ _ _ (WF_init _)
        (fun c hc => genConstraints_range _ _ (nums_lt_K root) c hc) hsol
      obtain ⟨_, _, _, hentry, _, _⟩ :=
        addVar_fold_spec (assignNumbers root 0 vmEmpty).2.1
          (preorderN (assignNumbers root 0 vmEmpty).1) uf [] hwf
      rw [buildVarMap_foldl] at hx
      rcases hentry x hx with hx2 | ⟨num, hmem, hlab⟩
      · simp at hx2
      · exact ⟨uf, rfl, num, hmem, hlab⟩

theorem report_labels_witness :
    ∃ uf,
      solveAll (assignNumbers (Node.Var "x") 0 vmEmpty).2.1
        (UnionFind.init ((assignNumbers (Node.Var "x") 0 vmEmpty).2.1 + 2))
        (genConstraints (assignNumbers (Node.Var "x") 0 vmEmpty).2.1
          (assignNumbers (Node.Var "x") 0 vmEmpty).1) = .ok uf ∧
      ∃ num, NNode.Var num (("x", "GENERICS-0") : String × String).1 ∈
          preorderN (assignNumbers (Node.Var "x") 0 vmEmpty).1 ∧
        LabelOf (assignNumbers (Node.Var "x") 0 vmEmpty).2.1 uf num
          (("x", "GENERICS-0") : String × String).2 :=
  report_labels.1 (Node.Var "x") [("x", "GENERICS-0")] (by decide)
    ("x", "GENERICS-0") (List.mem_cons_self _ _)

/-- Counterexample to claim C2 as stated: the generic label prefix in the
source is `GENERICS-`, not `GENERIC-`: the single-variable input `x`
reports `x :: GENERICS-0`, and `"GENERICS-0"` is not `"INT"`, `"BOOL"`, or
`"GENERIC-<k>"` for any `k`. -/
theorem report_labels_cex :
    typecheckLine "x" = .ok [("x", "GENERICS-0")] ∧
    ("GENERICS-0" : String) ≠ "INT" ∧
    ("GENERICS-0" : String) ≠ "BOOL" ∧
    ∀ k : Nat, ("GENERICS-0" : String) ≠ "GENERIC-" ++ toString k := by
  refine ⟨by decide, by decide, by decide, ?_⟩
  intro k h
  have h2 := congrArg String.data h
  rw [String.data_append] at h2
  have h4 := congrArg (fun l => l.getD 7 ' ') h2
  have h5 : ('S' : Char) = ('-' : Char) := h4
  exact absurd h5 (by decide)

end Repl
